import Mathlib

/-!
Verification development for the alpha_flip_research pipeline.

Shallow embedding conventions:
* timestamps are integers counting minutes (pandas Timestamps at 1-minute
  resolution); a Timedelta of m minutes is the integer m;
* real arithmetic (numpy/pandas floats) is modelled with exact rationals;
* a pandas Series indexed by time is a list of (time, value) pairs;
* NaN cells are modelled with Option (none = NaN), and dropna removes them;
* numpy/pandas sorts are modelled with List.insertionSort (stable, like
  pandas sort_index; np.argsort tie order is unspecified, the stable order
  is one admissible choice).
-/

namespace AlphaFlip

/-- Minimum of a list of integers, as computed by DatetimeIndex.min on a
nonempty index (0 is a junk value for the empty list, which the code never
feeds to min). -/
def listMin : List ℤ → ℤ
  | [] => 0
  | x :: xs => xs.foldl min x

/-- Maximum of a list of integers, as computed by DatetimeIndex.max on a
nonempty index. -/
def listMax : List ℤ → ℤ
  | [] => 0
  | x :: xs => xs.foldl max x

/-- Minimum of a list of rationals (junk value 0 on the empty list). -/
def listMinQ : List ℚ → ℚ
  | [] => 0
  | x :: xs => xs.foldl min x

/-! ## src/src/stats/fdr.py -/

/-- Tail of np.minimum.accumulate: running minimum continued from
accumulator m. -/
def cumMinGo (m : ℚ) : List ℚ → List ℚ
  | [] => []
  | y :: ys => min m y :: cumMinGo (min m y) ys

/-- Embeds np.minimum.accumulate on a rational vector. -/
def cumMin : List ℚ → List ℚ
  | [] => []
  | x :: xs => x :: cumMinGo x xs

/-- Ordering of positions by p-value, ties broken by position: the sort key
behind np.argsort(p). -/
def bhRel (p : List ℚ) (i j : ℕ) : Prop :=
  p.getD i 0 < p.getD j 0 ∨ (p.getD i 0 = p.getD j 0 ∧ i ≤ j)

instance (p : List ℚ) : DecidableRel (bhRel p) := fun i j => by
  unfold bhRel
  infer_instance

instance (p : List ℚ) : IsTotal ℕ (bhRel p) := by
  constructor
  intro i j
  unfold bhRel
  rcases lt_trichotomy (p.getD i 0) (p.getD j 0) with h | h | h
  · exact Or.inl (Or.inl h)
  · rcases Nat.le_total i j with hij | hij
    · exact Or.inl (Or.inr ⟨h, hij⟩)
    · exact Or.inr (Or.inr ⟨h.symm, hij⟩)
  · exact Or.inr (Or.inl h)

instance (p : List ℚ) : IsTrans ℕ (bhRel p) := by
  constructor
  intro i j k hij hjk
  unfold bhRel at hij hjk ⊢
  rcases hij with h1 | ⟨h1, h1n⟩
  · rcases hjk with h2 | ⟨h2, _⟩
    · exact Or.inl (h1.trans h2)
    · exact Or.inl (h2 ▸ h1)
  · rcases hjk with h2 | ⟨h2, h2n⟩
    · exact Or.inl (h1 ▸ h2)
    · exact Or.inr ⟨h1.trans h2, h1n.trans h2n⟩

/-- Ascending argsort of a rational vector: the positions 0..n-1 ordered by
value, ties broken by position (np.argsort with a deterministic tie order). -/
def argsortQ (p : List ℚ) : List ℕ :=
  List.insertionSort (bhRel p) (List.range p.length)

/-- Values of p sorted ascending: p[idx] in bh_fdr. -/
def bhSortedP (p : List ℚ) : List ℚ :=
  (argsortQ p).map (fun i => p.getD i 0)

/-- Rank-wise step-up quantities of bh_fdr: p[idx] * n / ranks with
ranks = 1..n. -/
def bhVals (p : List ℚ) : List ℚ :=
  (List.range p.length).map
    (fun r => (bhSortedP p).getD r 0 * (p.length : ℚ) / ((r : ℚ) + 1))

/-- Embeds the sorted q-value vector of bh_fdr:
np.minimum.accumulate((p[idx][::-1] * n / ranks[::-1]))[::-1]. -/
def bhQSorted (p : List ℚ) : List ℚ :=
  (cumMin (bhVals p).reverse).reverse

/-- Embeds bh_fdr from src/src/stats/fdr.py: Benjamini-Hochberg adjusted
q-values scattered back to the original positions (qvals[idx] = ...). The
threshold/passed lines of the source do not affect the returned vector and
are omitted. -/
def bh_fdr (p : List ℚ) : List ℚ :=
  let idx := argsortQ p
  let qS := bhQSorted p
  (List.range p.length).map (fun i => qS.getD (idx.indexOf i) 0)

/-! ## src/src/stats/permutation.py -/

/-- Mean of a list of rationals (nan on the empty list in numpy; here the
junk value 0, and callers branch on emptiness exactly where the source
branches on isfinite). -/
def meanQ (l : List ℚ) : ℚ := l.sum / l.length

/-- Embeds permutation_test_series from src/src/stats/permutation.py.
values are the finite entries (the isfinite filter is the identity in the
rational model). signs stands for the n_perm sign vectors drawn from
np.random.default_rng(rng_seed): the draws depend only on the seed and on
len(values), so two runs with the same seed and equal-length inputs see the
same list. obs = mean(values); each surrogate is mean(values * signs);
p = (#{|sur| >= |obs|} + 1) / (n_perm + 1). When values is empty the mean
is non-finite and the source returns (0.0, 1.0). -/
def permutation_test_series (values : List ℚ) (signs : List (List ℤ)) : ℚ × ℚ :=
  if values.isEmpty then (0, 1)
  else
    let obs := meanQ values
    let sur := signs.map (fun s => meanQ (List.zipWith (fun (v : ℚ) (si : ℤ) => v * (si : ℚ)) values s))
    (obs, ((sur.countP (fun m => |obs| ≤ |m|) : ℚ) + 1) / ((sur.length : ℚ) + 1))

/-! ## src/src/stats/cpcv.py -/

/-- Strips consecutive duplicates from a sorted integer list; composed with
a sort this embeds np.unique (sorted distinct values). -/
def dedupSorted : List ℤ → List ℤ
  | [] => []
  | [x] => [x]
  | x :: y :: tl => if x = y then dedupSorted (y :: tl) else x :: dedupSorted (y :: tl)

/-- Sorted index of cpcv_split_by_months: pd.DatetimeIndex(idx).sort_values(). -/
def cpcvSortedIdx (idx : List ℤ) : List ℤ :=
  List.insertionSort (· ≤ ·) idx

/-- Kept month keys of cpcv_split_by_months: np.unique of the month of every
timestamp, truncated to the last n_blocks entries when there are more.
mo stands for the calendar-month key PeriodIndex(ix, freq="M").asi8. -/
def cpcvMonths (mo : ℤ → ℤ) (idx : List ℤ) (nBlocks : ℕ) : List ℤ :=
  let uniq := dedupSorted (List.insertionSort (· ≤ ·) ((cpcvSortedIdx idx).map mo))
  if nBlocks < uniq.length then uniq.drop (uniq.length - nBlocks) else uniq

/-- Month blocks of cpcv_split_by_months: for each kept month key u, the
timestamps of the sorted index whose month equals u. -/
def cpcvBlocks (mo : ℤ → ℤ) (idx : List ℤ) (nBlocks : ℕ) : List (List ℤ) :=
  (cpcvMonths mo idx nBlocks).map (fun u => (cpcvSortedIdx idx).filter (fun t => mo t = u))

/-- Embeds one (train, test) pair of cpcv_split_by_months for block pair
(i, j): test is block j, train is the concatenation of every other block
with the embargo filter train < test_start - emb or train > test_end + emb
applied, where test_start/test_end are the min/max of the test block. -/
def cpcvPair (blocks : List (List ℤ)) (emb : ℤ) (i j : ℕ) : List ℤ × List ℤ :=
  let test := blocks.getD j []
  let train := ((List.range blocks.length).filter (fun k => k ≠ i ∧ k ≠ j)).flatMap
    (fun k => blocks.getD k [])
  let tStart := listMin test
  let tEnd := listMax test
  (train.filter (fun u => u < tStart - emb ∨ tEnd + emb < u), test)

/-- Embeds cpcv_split_by_months from src/src/stats/cpcv.py: all pairs
(i, j) with i < j over the kept month blocks, block j as test, embargoed
train, capped to the last max_combinations pairs. -/
def cpcv_split_by_months (mo : ℤ → ℤ) (idx : List ℤ) (nBlocks : ℕ) (emb : ℤ)
    (maxComb : ℕ) : List (List ℤ × List ℤ) :=
  let blocks := cpcvBlocks mo idx nBlocks
  let pairs := (List.range blocks.length).flatMap
    (fun i => ((List.range blocks.length).drop (i + 1)).map (fun j => cpcvPair blocks emb i j))
  if maxComb < pairs.length then pairs.drop (pairs.length - maxComb) else pairs

/-! ## src/src/regimes.py -/

/-- Minute grid of make_flip_labels: pd.date_range(lo, hi, freq="1min"). -/
def minuteGrid (lo hi : ℤ) : List ℤ :=
  (List.range (hi - lo + 1).toNat).map (fun n => lo + n)

/-- Embeds the label series y of make_flip_labels from src/src/regimes.py:
y starts at 0 on the minute grid and the loop sets y to 1 on
(idx > t) & (idx <= t + H) for every flip t, i.e. y(u) = 1 iff some flip t
satisfies t < u <= t + H. -/
def make_flip_labels (lo hi : ℤ) (flips : List ℤ) (H : ℤ) : List (ℤ × ℤ) :=
  (minuteGrid lo hi).map
    (fun u => (u, if flips.any (fun t => t < u ∧ u ≤ t + H) then 1 else 0))

/-- Lookup of a series value at a time (first matching entry). -/
def lookupI (l : List (ℤ × ℤ)) (t : ℤ) : Option ℤ :=
  (l.find? (fun e => e.1 = t)).map Prod.snd

/-- Macro trend states of build_macro_regime. -/
inductive Trend
  | bull
  | bear
  | range
  deriving DecidableEq, Repr

/-- Embeds the hysteresis loop of build_macro_regime as a state scan: the
carried (last, cnt) pair mirrors the mutable last/cnt of the source, and the
emitted first component is state_h[i] (equal to last after the step, since
an accepted bar keeps its own raw state and sets last to it). -/
def hystSteps (h : ℕ) : Trend → ℕ → List Trend → List (Trend × ℕ)
  | _, _, [] => []
  | last, cnt, s :: tl =>
    if s ≠ last then
      if h ≤ cnt + 1 then (s, 0) :: hystSteps h s 0 tl
      else (last, cnt + 1) :: hystSteps h last (cnt + 1) tl
    else (last, 0) :: hystSteps h last 0 tl

/-- Embeds the hysteresis pass of build_macro_regime from src/src/regimes.py:
state_h starts as a copy of the raw state, last = state[0], cnt = 0, and
each later bar either accepts the raw state (after h consecutive bars
differing from last) or retains last. -/
def applyHysteresis (h : ℕ) : List Trend → List Trend
  | [] => []
  | s0 :: tl => s0 :: (hystSteps h s0 0 tl).map Prod.fst

/-! ## src/src/gate.py -/

/-- Stable sort of a (time, value) series by time: p.sort_index(). -/
def sortByTime (xs : List (ℤ × ℚ)) : List (ℤ × ℚ) :=
  List.insertionSort (fun a b => a.1 ≤ b.1) xs

/-- Tail of the exponential moving average with adjust=False:
s_i = (1 - a) * s_(i-1) + a * x_i, carrying the timestamps along. -/
def ewmGo (a : ℚ) (prev : ℚ) : List (ℤ × ℚ) → List (ℤ × ℚ)
  | [] => []
  | (t, x) :: rest => (t, (1 - a) * prev + a * x) :: ewmGo a ((1 - a) * prev + a * x) rest

/-- Embeds p.ewm(span=span, adjust=False).mean(): s_0 = x_0 and
a = 2 / (span + 1). -/
def ewmPairs (a : ℚ) : List (ℤ × ℚ) → List (ℤ × ℚ)
  | [] => []
  | (t, x) :: rest => (t, x) :: ewmGo a x rest

/-- Smoothing step of gate_timeseries: EMA when ema_span > 1, else the raw
series. -/
def smoothSeries (span : ℤ) (xs : List (ℤ × ℚ)) : List (ℤ × ℚ) :=
  if 1 < span then ewmPairs (2 / ((span : ℚ) + 1)) xs else xs

/-- Confirmation step of gate_timeseries: for k > 1 the flag at position i is
(s >= thr).rolling(k, min_periods=k).sum() == k, i.e. the window of the last
k samples exists and each sample in it is >= thr (positions before k-1 get
NaN, fillna(0) != k, hence false); for k <= 1 the flag is s_i >= thr. -/
def onFlags (thr : ℚ) (k : ℤ) (s : List (ℤ × ℚ)) : List (ℤ × Bool) :=
  if 1 < k then
    (List.range s.length).map (fun i =>
      ((s.getD i (0, 0)).1,
        decide (k ≤ (i : ℤ) + 1) &&
          (((s.take (i + 1)).drop (i + 1 - k.toNat)).countP (fun e => decide (thr ≤ e.2))
            = k.toNat)))
  else s.map (fun e => (e.1, decide (thr ≤ e.2)))

/-- Cooldown loop of gate_timeseries over the flagged times: emit t when no
alert was emitted yet or t - last >= the cooldown, updating last. -/
def emitGo (sep : ℤ) : Option ℤ → List ℤ → List ℤ
  | _, [] => []
  | last, t :: rest =>
    if match last with
       | none => true
       | some l => decide (sep ≤ t - l) then
      t :: emitGo sep (some t) rest
    else emitGo sep last rest

/-- Final state of the cooldown loop (the value of last after a scan). -/
def emitLast (sep : ℤ) : Option ℤ → List ℤ → Option ℤ
  | last, [] => last
  | last, t :: rest =>
    if match last with
       | none => true
       | some l => decide (sep ≤ t - l) then
      emitLast sep (some t) rest
    else emitLast sep last rest

/-- Embeds gate_timeseries from src/src/gate.py: sort by time, smooth,
confirm, then the cooldown loop over on.index[on]. The result is the
DatetimeIndex of alert times. -/
def gate_timeseries (xs : List (ℤ × ℚ)) (thr : ℚ) (k : ℤ) (span : ℤ) (sep : ℤ) :
    List ℤ :=
  emitGo sep none
    (((onFlags thr k (smoothSeries span (sortByTime xs))).filter (fun e => e.2)).map Prod.fst)

/-! ## src/src/stats/metrics.py and src/src/models/hazard.py -/

/-- Embeds the index of the data train_hazard_logit is fitted on: the model
is a single global fit on the full (X, y) it receives (the source comment
says CPCV is used only for OOF predictions), and run_hazard.py passes the
full cleaned feature table. -/
def hazardTrainIndex (idx : List ℤ) : List ℤ := idx

/-- One step of the prediction assembly of evaluate_hazard:
preds.loc[te] = model.predict_proba(X.loc[te]); f t stands for the
probability the fitted model assigns to the row at timestamp t. -/
def oofStep (f : ℤ → ℚ) (acc : ℤ → Option ℚ) (pr : List ℤ × List ℤ) : ℤ → Option ℚ :=
  fun t => if t ∈ pr.2 then some (f t) else acc t

/-- Embeds the prediction assembly loop of evaluate_hazard: preds starts as
an all-NaN series and each fold overwrites its test partition with the
predictions of the (single, globally fitted) model. -/
def oofPreds (f : ℤ → ℚ) (splits : List (List ℤ × List ℤ)) : ℤ → Option ℚ :=
  splits.foldl (oofStep f) (fun _ => none)

/-- Clipping step of evaluate_hazard on the assembled predictions:
preds.clip(1e-6, 1 - 1e-6) (the inf/NaN replacement is the identity in the
rational model). -/
def cleanPreds (preds : List (ℤ × ℚ)) : List (ℤ × ℚ) :=
  (sortByTime preds).map
    (fun e => (e.1, min (max e.2 (1 / 1000000)) (1 - 1 / 1000000)))

/-- Raw alert indicator of evaluate_hazard: (preds >= alert_threshold). -/
def rawAlerts (thr : ℚ) (preds : List (ℤ × ℚ)) : List (ℤ × Bool) :=
  preds.map (fun e => (e.1, decide (thr ≤ e.2)))

/-- Throttle loop of evaluate_hazard: an alert minute is kept when no alert
was kept yet or t - last_on >= min_sep_min, otherwise it is zeroed. -/
def throttleGo (sep : ℤ) : Option ℤ → List (ℤ × Bool) → List (ℤ × Bool)
  | _, [] => []
  | last, (t, a) :: rest =>
    if a then
      if match last with
         | none => true
         | some l => decide (sep ≤ t - l) then
        (t, true) :: throttleGo sep (some t) rest
      else (t, false) :: throttleGo sep last rest
    else (t, false) :: throttleGo sep last rest

/-- Throttled alert series of evaluate_hazard. -/
def throttleAlerts (sep : ℤ) (alerts : List (ℤ × Bool)) : List (ℤ × Bool) :=
  throttleGo sep none alerts

/-- Calendar day of a minute timestamp (floor division), the bin key of
alerts.resample("1D"). -/
def dayOf (t : ℤ) : ℤ := t / 1440

/-- Embeds false_alarms_per_day of evaluate_hazard:
alerts.resample("1D").sum().mean() - the daily alert counts over the
calendar days spanned by the alert index, averaged (0 junk value on an
empty series, which the source never produces). -/
def faPerDay (alerts : List (ℤ × Bool)) : ℚ :=
  if alerts.isEmpty then 0
  else
    let times := alerts.map Prod.fst
    let d0 := dayOf (listMin times)
    let days := (dayOf (listMax times) - d0 + 1).toNat
    (((List.range days).map
      (fun (i : ℕ) => alerts.countP
        (fun e => e.2 && decide (dayOf e.1 = d0 + (i : ℤ))))).sum : ℚ)
      / (days : ℚ)

/-- Flip times recovered by evaluate_hazard from the label series:
y[(y==1) & (y.shift(1)==0)].index, i.e. the rising edges (the first entry is
never selected because shift(1) is NaN there). -/
def risingEdges (y : List (ℤ × ℤ)) : List ℤ :=
  (y.zip y.tail).filterMap
    (fun pr => if pr.2.2 = 1 ∧ pr.1.2 = 0 then some pr.2.1 else none)

/-- Composes the alert pipeline of evaluate_hazard down to the
false_alarms_per_day entry of the metrics record. -/
def evaluateHazardFa (preds : List (ℤ × ℚ)) (thr : ℚ) (sep : ℤ) : ℚ :=
  faPerDay (throttleAlerts sep (rawAlerts thr (cleanPreds preds)))

/-- Written from the claim, for comparison with the code: the count of
emitted alerts lying outside every pre-flip window [f - H, f], divided by
the number of (calendar) days spanned by the evaluated series. -/
def specFalseAlarmRate (alerts : List (ℤ × Bool)) (flips : List ℤ) (H : ℤ) : ℚ :=
  if alerts.isEmpty then 0
  else
    let times := alerts.map Prod.fst
    let days := (dayOf (listMax times) - dayOf (listMin times) + 1).toNat
    ((alerts.countP
      (fun e => e.2 && !(flips.any (fun f => decide (f - H ≤ e.1) && decide (e.1 ≤ f)))) : ℚ)
      / (days : ℚ))

/-! ## src/src/features/normalization.py -/

/-- Hour of day of a minute timestamp: the _hod grouping key of
RollingRobustZ.transform. -/
def hourOfDay (t : ℤ) : ℤ := t % 1440 / 60

/-- Median of a list of rationals, as np.nanmedian / pandas median on a
NaN-free vector: middle of the sorted values, or the average of the two
middles (0 junk value on the empty list, guarded by callers). -/
def medianQ (l : List ℚ) : ℚ :=
  let s := List.insertionSort (· ≤ ·) l
  let n := s.length
  if n % 2 = 1 then s.getD (n / 2) 0
  else (s.getD (n / 2 - 1) 0 + s.getD (n / 2) 0) / 2

/-- Stabilizer added to the rolling MAD in RollingRobustZ.transform (1e-9,
read as the exact rational). -/
def madEps : ℚ := 1 / 1000000000

/-- Trailing window values of the rolling("<W>D", closed="left") operations:
the values of the entries of g whose time lies in [t - W, t). -/
def windowVals (g : List (ℤ × ℚ)) (W t : ℤ) : List ℚ :=
  (g.filter (fun e => decide (t - W ≤ e.1) && decide (e.1 < t))).map Prod.snd

/-- Score of one row of RollingRobustZ.transform against its group G:
med = rolling median, mad = rolling nanmedian of absolute deviations plus
1e-9, z = (x - med) / mad; an empty trailing window gives NaN (none). -/
def zValAt (W : ℤ) (G : List (ℤ × ℚ)) (e : ℤ × ℚ) : Option ℚ :=
  let wv := windowVals G W e.1
  if wv.isEmpty then none
  else some ((e.2 - medianQ wv) / (medianQ (wv.map (fun v => |v - medianQ wv|)) + madEps))

/-- Embeds the per-column score computation of RollingRobustZ.transform on
one group g. -/
def zColumn (W : ℤ) (g : List (ℤ × ℚ)) : List (ℤ × Option ℚ) :=
  g.map (fun e => (e.1, zValAt W g e))

/-- Linear-interpolation quantile of a NaN-free vector, as
pandas Series.quantile: on the ascending sort v of length n, with
h = p * (n - 1), the value v[floor h] + (h - floor h) * (v[floor h + 1] -
v[floor h]) (0 junk value on the empty list). -/
def quantileQ (l : List ℚ) (p : ℚ) : ℚ :=
  let s := List.insertionSort (· ≤ ·) l
  let n := s.length
  if n = 0 then 0
  else
    let h : ℚ := p * ((n : ℚ) - 1)
    let i : ℕ := (Int.floor h).toNat
    s.getD i 0 + (h - (i : ℚ)) * (s.getD (i + 1) (s.getD i 0) - s.getD i 0)

/-- Embeds RollingRobustZ._winsor applied to a score column: lo and hi are
the p and 1-p quantiles of the non-NaN scores of the whole column, and each
score is clipped to [lo, hi] (NaN stays NaN; when every score is NaN the
quantiles are NaN and clip is the identity). -/
def winsorColumn (p : ℚ) (zs : List (ℤ × Option ℚ)) : List (ℤ × Option ℚ) :=
  let vals := zs.filterMap Prod.snd
  if vals.isEmpty then zs
  else
    let lo := quantileQ vals p
    let hi := quantileQ vals (1 - p)
    zs.map (fun e => (e.1, e.2.map (fun v => min (max v lo) hi)))

/-- Stable sort of an Option-valued series by time: out.sort_index() after
the per-hour concat. -/
def sortByTimeOpt (xs : List (ℤ × Option ℚ)) : List (ℤ × Option ℚ) :=
  List.insertionSort (fun a b => a.1 ≤ b.1) xs

/-- Embeds dropna on a single score column. -/
def dropNone (xs : List (ℤ × Option ℚ)) : List (ℤ × ℚ) :=
  xs.filterMap (fun e => e.2.map (fun v => (e.1, v)))

/-- Embeds RollingRobustZ.transform from src/src/features/normalization.py
on a single feature column, W in minutes (window_days * 1440): with
per_hour_of_day the rows are grouped by hour of day, scored and winsorized
within each group, concatenated and sorted by time; otherwise the whole
column is scored and winsorized directly; rows with NaN score are dropped. -/
def transform (perHod : Bool) (W : ℤ) (wp : ℚ) (xs : List (ℤ × ℚ)) : List (ℤ × ℚ) :=
  if perHod then
    dropNone (sortByTimeOpt
      (((List.range 24).map (fun h => xs.filter (fun e => hourOfDay e.1 = (h : ℤ)))).flatMap
        (fun g => winsorColumn wp (zColumn W g))))
  else dropNone (winsorColumn wp (zColumn W xs))

/-- Lookup of a rational series value at a time (first matching entry). -/
def lookupQ (l : List (ℤ × ℚ)) (t : ℤ) : Option ℚ :=
  (l.find? (fun e => e.1 = t)).map Prod.snd

/-- Lookup of an Option-valued series at a time (first matching entry). -/
def lookupOpt (l : List (ℤ × Option ℚ)) (t : ℤ) : Option (Option ℚ) :=
  (l.find? (fun e => e.1 = t)).map Prod.snd

/-! ## Helper lemmas -/

theorem foldl_min_le_init (xs : List ℤ) : ∀ x : ℤ, xs.foldl min x ≤ x := by
  induction xs with
  | nil => intro x; exact le_refl x
  | cons y ys ih =>
    intro x
    calc (y :: ys).foldl min x = ys.foldl min (min x y) := rfl
    _ ≤ min x y := ih (min x y)
    _ ≤ x := min_le_left x y

theorem init_le_foldl_max (xs : List ℤ) : ∀ x : ℤ, x ≤ xs.foldl max x := by
  induction xs with
  | nil => intro x; exact le_refl x
  | cons y ys ih =>
    intro x
    calc x ≤ max x y := le_max_left x y
    _ ≤ ys.foldl max (max x y) := ih (max x y)
    _ = (y :: ys).foldl max x := rfl

theorem listMin_le_listMax (l : List ℤ) : listMin l ≤ listMax l := by
  cases l with
  | nil => exact le_refl 0
  | cons x xs =>
    calc listMin (x :: xs) = xs.foldl min x := rfl
    _ ≤ x := foldl_min_le_init xs x
    _ ≤ xs.foldl max x := init_le_foldl_max xs x
    _ = listMax (x :: xs) := rfl

theorem foldl_min_le_mem (xs : List ℤ) :
    ∀ (x a : ℤ), a ∈ xs → xs.foldl min x ≤ a := by
  induction xs with
  | nil => intro x a ha; cases ha
  | cons y ys ih =>
    intro x a ha
    rcases List.mem_cons.mp ha with h | h
    · subst h
      calc (a :: ys).foldl min x = ys.foldl min (min x a) := rfl
      _ ≤ min x a := foldl_min_le_init ys (min x a)
      _ ≤ a := min_le_right x a
    · exact ih (min x y) a h

theorem listMin_le_mem (l : List ℤ) (a : ℤ) (ha : a ∈ l) : listMin l ≤ a := by
  cases l with
  | nil => cases ha
  | cons x xs =>
    rcases List.mem_cons.mp ha with h | h
    · subst h
      exact foldl_min_le_init xs a
    · exact foldl_min_le_mem xs x a h

theorem mem_le_foldl_max (xs : List ℤ) :
    ∀ (x a : ℤ), a ∈ xs → a ≤ xs.foldl max x := by
  induction xs with
  | nil => intro x a ha; cases ha
  | cons y ys ih =>
    intro x a ha
    rcases List.mem_cons.mp ha with h | h
    · subst h
      calc a ≤ max x a := le_max_right x a
      _ ≤ ys.foldl max (max x a) := init_le_foldl_max ys (max x a)
      _ = (a :: ys).foldl max x := rfl
    · exact ih (max x y) a h

theorem mem_le_listMax (l : List ℤ) (a : ℤ) (ha : a ∈ l) : a ≤ listMax l := by
  cases l with
  | nil => cases ha
  | cons x xs =>
    rcases List.mem_cons.mp ha with h | h
    · subst h
      exact init_le_foldl_max xs a
    · exact mem_le_foldl_max xs x a h

/-! ## Claim theorems: C3 -/

/-- C3: the claim says Label(t) = 1 iff a flip lies in the forthcoming
window (t, t + H]; the code marks the window (flip, flip + H] after each
flip instead. Evaluated at flips = [100], H = 3: the claim demands label 1
at t = 98 (flip 100 lies in (98, 101]) and label 0 at t = 101 (no flip in
(101, 104]), but the code yields 0 at 98 and 1 at 101, contradicting its
own docstring. -/
theorem c3_flip_label_direction :
    lookupI (make_flip_labels 0 110 [100] 3) 98 = some 0 ∧
      lookupI (make_flip_labels 0 110 [100] 3) 101 = some 1 := by
  decide

/-! ## Claim theorems: C5 -/

/-- C5: CPCV embargo invariant. Every (train, test) pair emitted by
cpcv_split_by_months with embargo emb satisfies, for every retained train
timestamp u: emb <= min |u - test_start| |u - test_end|, and u does not lie
in the closed interval [test_start - emb, test_end + emb], where
test_start/test_end are the minimum/maximum of the test block. -/
theorem c5_cpcv_embargo (mo : ℤ → ℤ) (idx : List ℤ) (nBlocks : ℕ) (emb : ℤ)
    (maxComb : ℕ) (pr : List ℤ × List ℤ)
    (hpr : pr ∈ cpcv_split_by_months mo idx nBlocks emb maxComb)
    (u : ℤ) (hu : u ∈ pr.1) :
    emb ≤ min |u - listMin pr.2| |u - listMax pr.2| ∧
      ¬(listMin pr.2 - emb ≤ u ∧ u ≤ listMax pr.2 + emb) := by
  have hpairs : pr ∈ (List.range (cpcvBlocks mo idx nBlocks).length).flatMap
      (fun i => ((List.range (cpcvBlocks mo idx nBlocks).length).drop (i + 1)).map
        (fun j => cpcvPair (cpcvBlocks mo idx nBlocks) emb i j)) := by
    unfold cpcv_split_by_months at hpr
    by_cases hlen : maxComb <
        ((List.range (cpcvBlocks mo idx nBlocks).length).flatMap
          (fun i => ((List.range (cpcvBlocks mo idx nBlocks).length).drop (i + 1)).map
            (fun j => cpcvPair (cpcvBlocks mo idx nBlocks) emb i j))).length
    · simp only [hlen, if_true] at hpr
      exact List.mem_of_mem_drop hpr
    · simp only [hlen, if_false] at hpr
      exact hpr
  rcases List.mem_flatMap.mp hpairs with ⟨i, _, hmem⟩
  rcases List.mem_map.mp hmem with ⟨j, _, hpair⟩
  subst hpair
  unfold cpcvPair at hu ⊢
  simp only at hu ⊢
  rcases List.mem_filter.mp hu with ⟨_, hcond⟩
  set te := (cpcvBlocks mo idx nBlocks).getD j [] with hte
  have hminmax : listMin te ≤ listMax te := listMin_le_listMax te
  have hcond2 : u < listMin te - emb ∨ listMax te + emb < u := by
    have := of_decide_eq_true hcond
    simpa using this
  rcases hcond2 with hlt | hgt
  · constructor
    · apply le_min
      · exact le_abs.mpr (Or.inr (by omega))
      · exact le_abs.mpr (Or.inr (by omega))
    · intro ⟨h1, _⟩
      omega
  · constructor
    · apply le_min
      · exact le_abs.mpr (Or.inl (by omega))
      · exact le_abs.mpr (Or.inl (by omega))
    · intro ⟨_, h2⟩
      omega

/-- C5 witness: the embargo invariant evaluated on a concrete index: pair
([0], [20, 25]) is emitted with embargo 3 and the retained train timestamp
0 is at distance at least 20 from the test span. -/
theorem c5_cpcv_embargo_witness :
    (3 : ℤ) ≤ min |(0 : ℤ) - listMin [20, 25]| |(0 : ℤ) - listMax [20, 25]| ∧
      ¬(listMin [20, 25] - 3 ≤ (0 : ℤ) ∧ (0 : ℤ) ≤ listMax [20, 25] + 3) :=
  c5_cpcv_embargo (fun t => t / 10) [0, 10, 20, 25] 6 3 10 ([0], [20, 25])
    (by decide) 0 (by decide)

/-! ## Claim theorems: C9 -/

theorem meanQ_map_neg (l : List ℚ) : meanQ (l.map (fun v => -v)) = -meanQ l := by
  unfold meanQ
  rw [List.length_map]
  rw [show (l.map (fun v => -v)).sum = -l.sum by
    induction l with
    | nil => simp
    | cons x xs ih => simp [ih]; ring]
  ring

theorem zipWith_neg_left (values : List ℚ) :
    ∀ s : List ℤ,
      List.zipWith (fun (v : ℚ) (si : ℤ) => v * (si : ℚ)) (values.map (fun v => -v)) s =
        (List.zipWith (fun (v : ℚ) (si : ℤ) => v * (si : ℚ)) values s).map (fun v => -v) := by
  induction values with
  | nil => intro s; rfl
  | cons x xs ih =>
    intro s
    cases s with
    | nil => rfl
    | cons y ys =>
      simp only [List.map_cons, List.zipWith_cons_cons, ih]
      congr 1
      ring

/-- C9: permutation-test symmetry. For every values array and every list of
sign vectors (the draws of the seeded rng, which depend only on the seed and
the array length, both unchanged under negation), permutation_test_series on
the element-wise negation returns the same two-sided p-value. -/
theorem c9_permutation_symmetry (values : List ℚ) (signs : List (List ℤ)) :
    (permutation_test_series (values.map (fun v => -v)) signs).2 =
      (permutation_test_series values signs).2 := by
  by_cases h : values = []
  · subst h
    rfl
  · have h1 : values.isEmpty = false := by
      cases values with
      | nil => exact absurd rfl h
      | cons x xs => rfl
    have h2 : (values.map (fun v => -v)).isEmpty = false := by
      cases values with
      | nil => exact absurd rfl h
      | cons x xs => rfl
    unfold permutation_test_series
    simp only [h1, h2, Bool.false_eq_true, if_false]
    have hsur : signs.map (fun s => meanQ
        (List.zipWith (fun (v : ℚ) (si : ℤ) => v * (si : ℚ)) (values.map (fun v => -v)) s)) =
        (signs.map (fun s => meanQ
          (List.zipWith (fun (v : ℚ) (si : ℤ) => v * (si : ℚ)) values s))).map (fun m => -m) := by
      rw [List.map_map]
      apply List.map_congr_left
      intro s _
      simp only [Function.comp]
      rw [zipWith_neg_left values s, meanQ_map_neg]
    rw [hsur, meanQ_map_neg]
    simp only [List.countP_map, List.length_map]
    have hcnt : List.countP
        (((fun m => decide (|(-meanQ values)| ≤ |m|)) ∘ fun m => -m) ∘ fun s =>
          meanQ (List.zipWith (fun (v : ℚ) (si : ℤ) => v * (si : ℚ)) values s)) signs =
        List.countP
        ((fun m => decide (|meanQ values| ≤ |m|)) ∘ fun s =>
          meanQ (List.zipWith (fun (v : ℚ) (si : ℤ) => v * (si : ℚ)) values s)) signs := by
      apply List.countP_congr
      intro s _
      simp [Function.comp, abs_neg]
    rw [hcnt]

/-! ## Claim theorems: C2 (counterexample) -/

/-- C2 counterexample: on the index [0, 10, 20] with one month per
timestamp, cpcv_split_by_months emits three folds in which timestamp 20
appears in the test partition of two distinct folds (so its prediction does
not come from exactly one fold), timestamp 0 appears in no test partition
(so the concatenation does not cover the full range), and timestamp 10 is
predicted out-of-fold while also belonging to the training index of the
globally fitted model. -/
theorem c2_oof_counterexample :
    ((cpcv_split_by_months (fun t => t / 10) [0, 10, 20] 6 0 10).countP
        (fun pr => decide ((20 : ℤ) ∈ pr.2)) = 2) ∧
      ((cpcv_split_by_months (fun t => t / 10) [0, 10, 20] 6 0 10).all
        (fun pr => decide ((0 : ℤ) ∉ pr.2)) = true) ∧
      ((10 : ℤ) ∈ hazardTrainIndex [0, 10, 20] ∧
        (cpcv_split_by_months (fun t => t / 10) [0, 10, 20] 6 0 10).any
          (fun pr => decide ((10 : ℤ) ∈ pr.2)) = true) := by
  decide

theorem oofPreds_foldl (f : ℤ → ℚ) :
    ∀ (splits : List (List ℤ × List ℤ)) (acc : ℤ → Option ℚ) (t : ℤ),
      splits.foldl (oofStep f) acc t =
        if splits.any (fun pr => decide (t ∈ pr.2)) then some (f t) else acc t := by
  intro splits
  induction splits with
  | nil => intro acc t; rfl
  | cons pr splits ih =>
    intro acc t
    have hstep : List.foldl (oofStep f) (oofStep f acc pr) splits t =
        if splits.any (fun q => decide (t ∈ q.2)) then some (f t)
        else oofStep f acc pr t := ih (oofStep f acc pr) t
    by_cases hs : splits.any (fun q => decide (t ∈ q.2))
    · by_cases hm : t ∈ pr.2 <;>
        simp [List.foldl_cons, hstep, hs, List.any_cons, hm]
    · by_cases hm : t ∈ pr.2 <;>
        simp [List.foldl_cons, hstep, hs, List.any_cons, hm, oofStep]

theorem mem_dedupSorted : ∀ (l : List ℤ), ∀ x ∈ dedupSorted l, x ∈ l := by
  intro l
  induction l with
  | nil => intro x hx; cases hx
  | cons a ys ih =>
    cases ys with
    | nil => intro x hx; exact hx
    | cons b tl =>
      intro x hx
      by_cases hab : a = b
      · rw [show dedupSorted (a :: b :: tl) = dedupSorted (b :: tl) from by
          simp [dedupSorted, hab]] at hx
        exact List.mem_cons_of_mem a (ih x hx)
      · rw [show dedupSorted (a :: b :: tl) = a :: dedupSorted (b :: tl) from by
          simp [dedupSorted, hab]] at hx
        rcases List.mem_cons.mp hx with h | h
        · exact h ▸ List.mem_cons_self a (b :: tl)
        · exact List.mem_cons_of_mem a (ih x h)

theorem nodup_dedupSorted : ∀ (l : List ℤ), l.Sorted (· ≤ ·) → (dedupSorted l).Nodup := by
  intro l
  induction l with
  | nil => intro _; exact List.nodup_nil
  | cons a ys ih =>
    cases ys with
    | nil => intro _; simp [dedupSorted]
    | cons b tl =>
      intro hs
      have hs2 : (b :: tl).Sorted (· ≤ ·) := (List.sorted_cons.mp hs).2
      have hab : a ≤ b := (List.sorted_cons.mp hs).1 b (List.mem_cons_self b tl)
      by_cases heq : a = b
      · rw [show dedupSorted (a :: b :: tl) = dedupSorted (b :: tl) from by
          simp [dedupSorted, heq]]
        exact ih hs2
      · rw [show dedupSorted (a :: b :: tl) = a :: dedupSorted (b :: tl) from by
          simp [dedupSorted, heq]]
        refine List.nodup_cons.mpr ⟨?_, ih hs2⟩
        intro hmem
        have hx : a ∈ b :: tl := mem_dedupSorted (b :: tl) a hmem
        have hax : b ≤ a := by
          rcases List.mem_cons.mp hx with h | h
          · exact h.ge
          · exact (List.sorted_cons.mp hs2).1 a h
        exact heq (le_antisymm hab hax)

theorem cpcvMonths_nodup (mo : ℤ → ℤ) (idx : List ℤ) (nBlocks : ℕ) :
    (cpcvMonths mo idx nBlocks).Nodup := by
  unfold cpcvMonths
  have hsorted : (List.insertionSort (· ≤ ·) ((cpcvSortedIdx idx).map mo)).Sorted (· ≤ ·) :=
    List.sorted_insertionSort (· ≤ ·) _
  have hnd := nodup_dedupSorted _ hsorted
  by_cases hlen : nBlocks <
      (dedupSorted (List.insertionSort (· ≤ ·) ((cpcvSortedIdx idx).map mo))).length
  · simp only [hlen, if_true]
    exact hnd.sublist (List.drop_sublist _ _)
  · simp only [hlen, if_false]
    exact hnd

theorem mem_drop_range {n m x : ℕ} (hx : x ∈ (List.range n).drop m) : m ≤ x ∧ x < n := by
  rcases List.mem_iff_getElem.mp hx with ⟨i, hi, hget⟩
  have hlen : i < n - m := by
    simpa [List.length_drop] using hi
  have : (List.range n).drop m = (List.range n).drop m := rfl
  rw [List.getElem_drop] at hget
  rw [List.getElem_range] at hget
  omega

/-- C2 (amended): the prediction assembly of evaluate_hazard writes, at
every timestamp belonging to some test partition, the probability of the
single globally fitted model (the same value regardless of how many folds
test that timestamp), and leaves every other timestamp NaN; every index
timestamp (in particular every tested one) belongs to the training index of
the global model; and timestamps of the earliest kept month block belong to
no test partition of cpcv_split_by_months, hence receive no prediction. -/
theorem c2_oof_assembly (f : ℤ → ℚ) :
    (∀ (splits : List (List ℤ × List ℤ)) (t : ℤ),
      oofPreds f splits t =
        if splits.any (fun pr => decide (t ∈ pr.2)) then some (f t) else none) ∧
    (∀ (idx : List ℤ) (t : ℤ), t ∈ idx → t ∈ hazardTrainIndex idx) ∧
    (∀ (mo : ℤ → ℤ) (idx : List ℤ) (nBlocks : ℕ) (emb : ℤ) (maxComb : ℕ)
      (m0 : ℤ) (rest : List ℤ), cpcvMonths mo idx nBlocks = m0 :: rest →
      ∀ t : ℤ, mo t = m0 →
        oofPreds f (cpcv_split_by_months mo idx nBlocks emb maxComb) t = none) := by
  refine ⟨fun splits t => oofPreds_foldl f splits _ t, fun idx t ht => ht, ?_⟩
  intro mo idx nBlocks emb maxComb m0 rest hmonths t hmo
  unfold oofPreds
  rw [oofPreds_foldl f _ _ t]
  have hnone : (cpcv_split_by_months mo idx nBlocks emb maxComb).any
      (fun pr => decide (t ∈ pr.2)) = false := by
    rw [List.any_eq_false]
    intro pr hpr
    simp only [decide_eq_true_eq]
    intro hmem
    have hpairs : pr ∈ (List.range (cpcvBlocks mo idx nBlocks).length).flatMap
        (fun i => ((List.range (cpcvBlocks mo idx nBlocks).length).drop (i + 1)).map
          (fun j => cpcvPair (cpcvBlocks mo idx nBlocks) emb i j)) := by
      unfold cpcv_split_by_months at hpr
      by_cases hlen : maxComb <
          ((List.range (cpcvBlocks mo idx nBlocks).length).flatMap
            (fun i => ((List.range (cpcvBlocks mo idx nBlocks).length).drop (i + 1)).map
              (fun j => cpcvPair (cpcvBlocks mo idx nBlocks) emb i j))).length
      · simp only [hlen, if_true] at hpr
        exact List.mem_of_mem_drop hpr
      · simp only [hlen, if_false] at hpr
        exact hpr
    rcases List.mem_flatMap.mp hpairs with ⟨i, _, hmem2⟩
    rcases List.mem_map.mp hmem2 with ⟨j, hj, hpair⟩
    have hjrange := mem_drop_range hj
    have hjlen : j < (cpcvMonths mo idx nBlocks).length := by
      have : (cpcvBlocks mo idx nBlocks).length = (cpcvMonths mo idx nBlocks).length :=
        List.length_map _ _
      omega
    subst hpair
    unfold cpcvPair at hmem
    simp only at hmem
    have hte : (cpcvBlocks mo idx nBlocks).getD j [] =
        (cpcvSortedIdx idx).filter
          (fun u => mo u = (cpcvMonths mo idx nBlocks).getD j 0) := by
      unfold cpcvBlocks
      rw [List.getD_eq_getElem _ _ (by simpa using hjlen), List.getElem_map,
        List.getD_eq_getElem _ _ hjlen]
    rw [hte] at hmem
    have hmot : mo t = (cpcvMonths mo idx nBlocks).getD j 0 := by
      have := (List.mem_filter.mp hmem).2
      exact of_decide_eq_true this
    have hne : (cpcvMonths mo idx nBlocks).getD j 0 ≠ m0 := by
      have hnd := cpcvMonths_nodup mo idx nBlocks
      have h0len : 0 < (cpcvMonths mo idx nBlocks).length := by
        rw [hmonths]; exact Nat.succ_pos _
      rw [List.getD_eq_getElem _ _ hjlen]
      have hm0 : (cpcvMonths mo idx nBlocks)[0] = m0 := by
        simp [hmonths]
      rw [← hm0]
      intro hcontr
      have := (hnd.getElem_inj_iff).mp hcontr
      omega
    exact hne (by rw [← hmot, hmo])
  rw [hnone]
  rfl

/-- C2 witness: on the concrete three-month index, the timestamp 0 of the
earliest month block gets no out-of-fold prediction. -/
theorem c2_oof_assembly_witness :
    oofPreds (fun _ => (1 : ℚ) / 2)
      (cpcv_split_by_months (fun t => t / 10) [0, 10, 20] 6 0 10) 0 = none :=
  (c2_oof_assembly (fun _ => (1 : ℚ) / 2)).2.2 (fun t => t / 10) [0, 10, 20] 6 0 10
    0 [1, 2] (by decide) 0 (by decide)

/-! ## Claim theorems: C7 -/

/-- C7 counterexample: with hysteresis_bars = 2 and raw states
range, bull, bear, the loop accepts bear at bar 2 (the counter counts bars
differing from the accepted state, not bars of one persistent candidate):
the output changes at bar 2 although the accepted candidate bear was the raw
state for only one bar, bar 1 being bull. -/
theorem c7_hysteresis_counterexample :
    applyHysteresis 2 [Trend.range, Trend.bull, Trend.bear] =
        [Trend.range, Trend.range, Trend.bear] ∧
      (applyHysteresis 2 [Trend.range, Trend.bull, Trend.bear]).getD 2 Trend.range ≠
        (applyHysteresis 2 [Trend.range, Trend.bull, Trend.bear]).getD 1 Trend.range ∧
      [Trend.range, Trend.bull, Trend.bear].getD 1 Trend.range ≠
        (applyHysteresis 2 [Trend.range, Trend.bull, Trend.bear]).getD 2 Trend.range := by
  decide

theorem hystSteps_length (h : ℕ) :
    ∀ (tl : List Trend) (last : Trend) (cnt : ℕ),
      (hystSteps h last cnt tl).length = tl.length := by
  intro tl
  induction tl with
  | nil => intro last cnt; rfl
  | cons s tl2 ih =>
    intro last cnt
    by_cases hne : s ≠ last
    · by_cases hacc : h ≤ cnt + 1
      · simp [hystSteps, hne, hacc, ih]
      · simp [hystSteps, hne, hacc, ih]
    · simp [hystSteps, hne, ih]

theorem hystSteps_change (h : ℕ) (hh : 1 ≤ h) :
    ∀ (tl pre : List Trend) (last : Trend) (cnt : ℕ),
      cnt + 1 ≤ pre.length → cnt + 1 ≤ h →
      (∀ j, pre.length - cnt ≤ j → j < pre.length → pre.getD j Trend.range ≠ last) →
      ∀ i, i < tl.length →
        ((hystSteps h last cnt tl).getD i (Trend.range, 0)).1 ≠
          (if i = 0 then last
           else ((hystSteps h last cnt tl).getD (i - 1) (Trend.range, 0)).1) →
        ((hystSteps h last cnt tl).getD i (Trend.range, 0)).1 = tl.getD i Trend.range ∧
          h ≤ pre.length + i ∧
          ∀ j, pre.length + i < j + h → j ≤ pre.length + i →
            (pre ++ tl).getD j Trend.range ≠
              (if i = 0 then last
               else ((hystSteps h last cnt tl).getD (i - 1) (Trend.range, 0)).1) := by
  intro tl
  induction tl with
  | nil =>
    intro pre last cnt _ _ _ i hi
    exact absurd hi (by simp)
  | cons s tl2 ih =>
    intro pre last cnt hcntpre hcnth hwin i hi hchg
    -- name the head state produced by the step
    have hstep : ∃ last2 cnt2,
        hystSteps h last cnt (s :: tl2) = (last2, cnt2) :: hystSteps h last2 cnt2 tl2 ∧
        ((s = last ∧ last2 = last ∧ cnt2 = 0) ∨
         (s ≠ last ∧ h ≤ cnt + 1 ∧ last2 = s ∧ cnt2 = 0) ∨
         (s ≠ last ∧ ¬h ≤ cnt + 1 ∧ last2 = last ∧ cnt2 = cnt + 1)) := by
      by_cases hne : s ≠ last
      · by_cases hacc : h ≤ cnt + 1
        · exact ⟨s, 0, by simp [hystSteps, hne, hacc], Or.inr (Or.inl ⟨hne, hacc, rfl, rfl⟩)⟩
        · exact ⟨last, cnt + 1, by simp [hystSteps, hne, hacc],
            Or.inr (Or.inr ⟨hne, hacc, rfl, rfl⟩)⟩
      · push_neg at hne
        exact ⟨last, 0, by simp [hystSteps, hne], Or.inl ⟨hne, rfl, rfl⟩⟩
    rcases hstep with ⟨last2, cnt2, hrec, hcases⟩
    cases i with
    | zero =>
      rw [hrec] at hchg ⊢
      simp only [List.getD_cons_zero, if_pos rfl] at hchg ⊢
      -- a change at relative index 0 forces the acceptance branch
      rcases hcases with ⟨_, hl2, _⟩ | ⟨hne, hacc, hl2, _⟩ | ⟨_, _, hl2, _⟩
      · exact absurd (hl2 ▸ hchg) (by simp)
      · subst hl2
        have hcnteq : cnt + 1 = h := le_antisymm hcnth hacc
        refine ⟨rfl, by omega, ?_⟩
        intro j hj1 hj2
        rcases Nat.lt_or_ge j pre.length with hjlt | hjge
        · rw [List.getD_append _ _ _ _ hjlt]
          exact hwin j (by omega) hjlt
        · have hjeq : j = pre.length := by omega
          subst hjeq
          rw [List.getD_append_right _ _ _ _ (le_refl _), Nat.sub_self]
          simpa using hne
      · exact absurd (hl2 ▸ hchg) (by simp)
    | succ i2 =>
      rw [hrec] at hchg ⊢
      simp only [List.getD_cons_succ, Nat.add_sub_cancel] at hchg ⊢
      -- align the previous-output reference with the tail recursion
      have hprev : ((last2, cnt2) :: hystSteps h last2 cnt2 tl2).getD i2 (Trend.range, 0) =
          (if i2 = 0 then (last2, cnt2)
           else (hystSteps h last2 cnt2 tl2).getD (i2 - 1) (Trend.range, 0)) := by
        cases i2 with
        | zero => simp
        | succ m => simp
      have hchg2 : ((hystSteps h last2 cnt2 tl2).getD i2 (Trend.range, 0)).1 ≠
          (if i2 = 0 then last2
           else ((hystSteps h last2 cnt2 tl2).getD (i2 - 1) (Trend.range, 0)).1) := by
        intro hcontr
        apply hchg
        rw [hprev]
        cases i2 with
        | zero => simpa using hcontr
        | succ m => simpa using hcontr
      have hi2 : i2 < tl2.length := by
        have := hi
        simp only [List.length_cons] at this
        omega
      -- invariants for the extended history pre ++ [s]
      have hinv : cnt2 + 1 ≤ (pre ++ [s]).length ∧ cnt2 + 1 ≤ h ∧
          (∀ j, (pre ++ [s]).length - cnt2 ≤ j → j < (pre ++ [s]).length →
            (pre ++ [s]).getD j Trend.range ≠ last2) := by
        rcases hcases with ⟨hsl, hl2, hc2⟩ | ⟨hne, hacc, hl2, hc2⟩ | ⟨hne, hacc, hl2, hc2⟩
        · subst hl2; subst hc2
          refine ⟨by simp, by omega, ?_⟩
          intro j hj1 hj2
          simp only [List.length_append, List.length_cons, List.length_nil] at hj1 hj2
          omega
        · subst hl2; subst hc2
          refine ⟨by simp, by omega, ?_⟩
          intro j hj1 hj2
          simp only [List.length_append, List.length_cons, List.length_nil] at hj1 hj2
          omega
        · subst hl2; subst hc2
          refine ⟨by simp [List.length_append]; omega, by omega, ?_⟩
          intro j hj1 hj2
          simp only [List.length_append, List.length_cons, List.length_nil] at hj1 hj2
          rcases Nat.lt_or_ge j pre.length with hjlt | hjge
          · rw [List.getD_append _ _ _ _ hjlt]
            exact hwin j (by omega) hjlt
          · have hjeq : j = pre.length := by omega
            subst hjeq
            rw [List.getD_append_right _ _ _ _ (le_refl _), Nat.sub_self]
            simpa using hne
      rcases hinv with ⟨hinv1, hinv2, hinv3⟩
      have := ih (pre ++ [s]) last2 cnt2 hinv1 hinv2 hinv3 i2 hi2 hchg2
      rcases this with ⟨hval, hbound, hwindow⟩
      refine ⟨?_, ?_, ?_⟩
      · simpa using hval
      · simp only [List.length_append, List.length_cons, List.length_nil] at hbound
        omega
      · intro j hj1 hj2
        have hlen : (pre ++ [s]).length = pre.length + 1 := by simp
        have hget : ((pre ++ [s]) ++ tl2).getD j Trend.range =
            (pre ++ s :: tl2).getD j Trend.range := by
          rw [List.append_assoc]
          rfl
        have := hwindow j (by omega) (by omega)
        rw [hget] at this
        cases i2 with
        | zero => simpa using this
        | succ m => simpa using this

/-- C7 (amended): in the hysteresis pass of build_macro_regime, an accepted
trend-state change at bar i adopts the raw state of bar i itself, can only
happen once i >= hysteresis_bars, and requires that each of the h bars
i-h+1..i carries a raw state differing from the previously accepted state
(not necessarily h bars of one identical candidate); on every bar where no
change is accepted the previously accepted state is retained (the
contrapositive of the stated implication). -/
theorem c7_hysteresis_amended (raw : List Trend) (h : ℕ) (hh : 1 ≤ h) (i : ℕ)
    (hi : i < raw.length) (hi1 : 1 ≤ i)
    (hchg : (applyHysteresis h raw).getD i Trend.range ≠
      (applyHysteresis h raw).getD (i - 1) Trend.range) :
    (applyHysteresis h raw).getD i Trend.range = raw.getD i Trend.range ∧
      h ≤ i ∧
      ∀ j, i < j + h → j ≤ i →
        raw.getD j Trend.range ≠ (applyHysteresis h raw).getD (i - 1) Trend.range := by
  cases raw with
  | nil => exact absurd hi (by simp)
  | cons s0 tl =>
    have hlen : (hystSteps h s0 0 tl).length = tl.length := hystSteps_length h tl s0 0
    have hmapfst : ∀ n, n < tl.length →
        ((hystSteps h s0 0 tl).map Prod.fst).getD n Trend.range =
          ((hystSteps h s0 0 tl).getD n (Trend.range, 0)).1 := by
      intro n hn
      rw [List.getD_eq_getElem _ _ (by simpa [hlen] using hn),
        List.getElem_map, List.getD_eq_getElem _ _ (by simpa [hlen] using hn)]
    have hitl : i - 1 < tl.length := by
      simp only [List.length_cons] at hi
      omega
    have hout_i : (applyHysteresis h (s0 :: tl)).getD i Trend.range =
        ((hystSteps h s0 0 tl).getD (i - 1) (Trend.range, 0)).1 := by
      unfold applyHysteresis
      rcases Nat.exists_eq_add_of_le hi1 with ⟨m, hm⟩
      subst hm
      simp only [Nat.add_comm 1 m, List.getD_cons_succ, Nat.add_sub_cancel]
      exact hmapfst m (by omega)
    have hout_prev : (applyHysteresis h (s0 :: tl)).getD (i - 1) Trend.range =
        (if i - 1 = 0 then s0
         else ((hystSteps h s0 0 tl).getD (i - 1 - 1) (Trend.range, 0)).1) := by
      unfold applyHysteresis
      cases hcase : i - 1 with
      | zero => simp
      | succ m =>
        simp only [List.getD_cons_succ]
        exact (by
          rw [hmapfst m (by omega)]
          simp)
    have hchg2 : ((hystSteps h s0 0 tl).getD (i - 1) (Trend.range, 0)).1 ≠
        (if i - 1 = 0 then s0
         else ((hystSteps h s0 0 tl).getD (i - 1 - 1) (Trend.range, 0)).1) := by
      rw [← hout_i, ← hout_prev]
      exact hchg
    have hwin0 : ∀ j, [s0].length - 0 ≤ j → j < [s0].length →
        [s0].getD j Trend.range ≠ s0 := by
      intro j hj1 hj2
      simp only [List.length_cons, List.length_nil] at hj1 hj2
      omega
    have hmain := hystSteps_change h hh tl [s0] s0 0 (by simp) (by omega) hwin0
      (i - 1) hitl hchg2
    rcases hmain with ⟨hval, hbound, hwindow⟩
    refine ⟨?_, ?_, ?_⟩
    · rw [hout_i, hval]
      rcases Nat.exists_eq_add_of_le hi1 with ⟨m, hm⟩
      subst hm
      simp [Nat.add_comm 1 m]
    · simp only [List.length_cons, List.length_nil] at hbound
      omega
    · intro j hj1 hj2
      have := hwindow j (by simp; omega) (by simp; omega)
      rw [hout_prev]
      have happ : ([s0] ++ tl).getD j Trend.range = (s0 :: tl).getD j Trend.range := rfl
      rw [happ] at this
      exact this

/-- C7 witness: with hysteresis_bars = 2 and raw states range, bull, bull,
the change accepted at bar 2 adopts bull, happens at bar index at least 2,
and bar 1 differed from the previously accepted state. -/
theorem c7_hysteresis_amended_witness :
    (applyHysteresis 2 [Trend.range, Trend.bull, Trend.bull]).getD 2 Trend.range =
        [Trend.range, Trend.bull, Trend.bull].getD 2 Trend.range ∧
      2 ≤ 2 ∧
      [Trend.range, Trend.bull, Trend.bull].getD 1 Trend.range ≠
        (applyHysteresis 2 [Trend.range, Trend.bull, Trend.bull]).getD 1 Trend.range := by
  have hmain := c7_hysteresis_amended [Trend.range, Trend.bull, Trend.bull] 2
    (by decide) 2 (by decide) (by decide) (by decide)
  exact ⟨hmain.1, hmain.2.1, hmain.2.2 1 (by decide) (by decide)⟩

/-! ## Claim theorems: C6 -/

theorem foldl_min_commQ (l : List ℚ) : ∀ a b : ℚ, l.foldl min (min a b) = min a (l.foldl min b) := by
  induction l with
  | nil => intro a b; rfl
  | cons c cs ih =>
    intro a b
    calc (c :: cs).foldl min (min a b) = cs.foldl min (min (min a b) c) := rfl
    _ = cs.foldl min (min a (min b c)) := by rw [min_assoc]
    _ = min a (cs.foldl min (min b c)) := ih a (min b c)
    _ = min a ((c :: cs).foldl min b) := rfl

theorem listMinQ_cons (y : ℚ) (zs : List ℚ) (h : zs ≠ []) :
    listMinQ (y :: zs) = min y (listMinQ zs) := by
  cases zs with
  | nil => exact absurd rfl h
  | cons z zt =>
    calc listMinQ (y :: z :: zt) = zt.foldl min (min y z) := rfl
    _ = min y (zt.foldl min z) := foldl_min_commQ zt y z
    _ = min y (listMinQ (z :: zt)) := rfl

theorem foldl_minQ_le_init (xs : List ℚ) : ∀ x : ℚ, xs.foldl min x ≤ x := by
  induction xs with
  | nil => intro x; exact le_refl x
  | cons y ys ih =>
    intro x
    calc (y :: ys).foldl min x = ys.foldl min (min x y) := rfl
    _ ≤ min x y := ih (min x y)
    _ ≤ x := min_le_left x y

theorem foldl_minQ_mem (xs : List ℚ) : ∀ a : ℚ, xs.foldl min a = a ∨ xs.foldl min a ∈ xs := by
  induction xs with
  | nil => intro a; exact Or.inl rfl
  | cons y ys ih =>
    intro a
    rcases ih (min a y) with h | h
    · rcases min_choice a y with hc | hc
      · exact Or.inl (by rw [show (y :: ys).foldl min a = ys.foldl min (min a y) from rfl, h, hc])
      · refine Or.inr (List.mem_cons.mpr (Or.inl ?_))
        rw [show (y :: ys).foldl min a = ys.foldl min (min a y) from rfl, h, hc]
    · exact Or.inr (List.mem_cons.mpr (Or.inr h))

theorem listMinQ_mem (l : List ℚ) (h : l ≠ []) : listMinQ l ∈ l := by
  cases l with
  | nil => exact absurd rfl h
  | cons x xs =>
    rcases foldl_minQ_mem xs x with h1 | h1
    · exact List.mem_cons.mpr (Or.inl h1)
    · exact List.mem_cons.mpr (Or.inr h1)

theorem foldl_minQ_le_mem (xs : List ℚ) :
    ∀ (x a : ℚ), a ∈ xs → xs.foldl min x ≤ a := by
  induction xs with
  | nil => intro x a ha; cases ha
  | cons y ys ih =>
    intro x a ha
    rcases List.mem_cons.mp ha with h | h
    · subst h
      calc (a :: ys).foldl min x = ys.foldl min (min x a) := rfl
      _ ≤ min x a := foldl_minQ_le_init ys (min x a)
      _ ≤ a := min_le_right x a
    · exact ih (min x y) a h

theorem listMinQ_le_mem (l : List ℚ) (a : ℚ) (ha : a ∈ l) : listMinQ l ≤ a := by
  cases l with
  | nil => cases ha
  | cons x xs =>
    rcases List.mem_cons.mp ha with h | h
    · subst h
      exact foldl_minQ_le_init xs a
    · exact foldl_minQ_le_mem xs x a h

theorem le_listMinQ (l : List ℚ) (c : ℚ) (h : l ≠ []) (hc : ∀ x ∈ l, c ≤ x) :
    c ≤ listMinQ l :=
  hc _ (listMinQ_mem l h)

theorem listMinQ_reverse (l : List ℚ) : listMinQ l.reverse = listMinQ l := by
  cases hl : l with
  | nil => rfl
  | cons x xs =>
    have hne : l ≠ [] := by rw [hl]; exact List.cons_ne_nil x xs
    have hner : l.reverse ≠ [] := by
      intro hcontr
      exact hne (by simpa using congrArg List.reverse hcontr)
    rw [← hl]
    apply le_antisymm
    · exact listMinQ_le_mem _ _ (List.mem_reverse.mpr (listMinQ_mem l hne))
    · exact listMinQ_le_mem _ _ (List.mem_reverse.mp (listMinQ_mem l.reverse hner))

theorem cumMinGo_length (m : ℚ) : ∀ xs : List ℚ, (cumMinGo m xs).length = xs.length := by
  intro xs
  induction xs generalizing m with
  | nil => rfl
  | cons y ys ih => simp [cumMinGo, ih]

theorem cumMin_length (l : List ℚ) : (cumMin l).length = l.length := by
  cases l with
  | nil => rfl
  | cons x xs => simp [cumMin, cumMinGo_length]

theorem cumMinGo_getD (m : ℚ) : ∀ (xs : List ℚ) (r : ℕ), r < xs.length →
    (cumMinGo m xs).getD r 0 = min m (listMinQ (xs.take (r + 1))) := by
  intro xs
  induction xs generalizing m with
  | nil =>
    intro r hr
    exact absurd hr (by simp)
  | cons y ys ih =>
    intro r hr
    cases r with
    | zero => simp [cumMinGo, listMinQ]
    | succ r2 =>
      have hr2 : r2 < ys.length := by simpa using hr
      have htake : (y :: ys).take (r2 + 1 + 1) = y :: ys.take (r2 + 1) := rfl
      have hne : ys.take (r2 + 1) ≠ [] := by
        cases ys with
        | nil => exact absurd hr2 (by simp)
        | cons z zt => exact List.cons_ne_nil z _
      calc (cumMinGo m (y :: ys)).getD (r2 + 1) 0
          = (cumMinGo (min m y) ys).getD r2 0 := by simp [cumMinGo]
      _ = min (min m y) (listMinQ (ys.take (r2 + 1))) := ih (min m y) r2 hr2
      _ = min m (min y (listMinQ (ys.take (r2 + 1)))) := by rw [min_assoc]
      _ = min m (listMinQ ((y :: ys).take (r2 + 1 + 1))) := by
            rw [htake, listMinQ_cons y _ hne]

theorem cumMin_getD (l : List ℚ) (r : ℕ) (hr : r < l.length) :
    (cumMin l).getD r 0 = listMinQ (l.take (r + 1)) := by
  cases l with
  | nil => exact absurd hr (by simp)
  | cons x xs =>
    cases r with
    | zero => simp [cumMin, listMinQ]
    | succ r2 =>
      have hr2 : r2 < xs.length := by simpa using hr
      have hne : xs.take (r2 + 1) ≠ [] := by
        cases xs with
        | nil => exact absurd hr2 (by simp)
        | cons z zt => exact List.cons_ne_nil z _
      calc (cumMin (x :: xs)).getD (r2 + 1) 0
          = (cumMinGo x xs).getD r2 0 := by simp [cumMin]
      _ = min x (listMinQ (xs.take (r2 + 1))) := cumMinGo_getD x xs r2 hr2
      _ = listMinQ (x :: xs.take (r2 + 1)) := (listMinQ_cons x _ hne).symm
      _ = listMinQ ((x :: xs).take (r2 + 1 + 1)) := rfl

theorem bhVals_length (p : List ℚ) : (bhVals p).length = p.length := by
  simp [bhVals]

theorem bhQSorted_getD (p : List ℚ) (r : ℕ) (hr : r < p.length) :
    (bhQSorted p).getD r 0 = listMinQ ((bhVals p).drop r) := by
  have hrv : r < (bhVals p).length := by rw [bhVals_length]; exact hr
  have hlenrev : (bhVals p).reverse.length = (bhVals p).length := List.length_reverse _
  have hlenc : (cumMin (bhVals p).reverse).length = (bhVals p).length := by
    rw [cumMin_length, hlenrev]
  have hidx : r < (cumMin (bhVals p).reverse).reverse.length := by
    simpa [hlenc] using hrv
  unfold bhQSorted
  rw [List.getD_eq_getElem _ _ hidx, List.getElem_reverse]
  have hlt : (cumMin (bhVals p).reverse).length - 1 - r < (cumMin (bhVals p).reverse).length := by
    omega
  rw [← List.getD_eq_getElem _ (0 : ℚ) hlt]
  rw [cumMin_getD _ _ (by rw [hlenrev]; omega)]
  have harith : (cumMin (bhVals p).reverse).length - 1 - r + 1 = (bhVals p).length - r := by
    omega
  rw [harith]
  have h1 : ((bhVals p).reverse.take ((bhVals p).length - r)).reverse =
      (bhVals p).drop r := by
    rw [List.reverse_take, List.reverse_reverse, hlenrev]
    congr 1
    omega
  have htake : (bhVals p).reverse.take ((bhVals p).length - r) =
      ((bhVals p).drop r).reverse := by
    calc (bhVals p).reverse.take ((bhVals p).length - r)
        = ((bhVals p).reverse.take ((bhVals p).length - r)).reverse.reverse := by
          rw [List.reverse_reverse]
    _ = ((bhVals p).drop r).reverse := by rw [h1]
  rw [htake, listMinQ_reverse]

theorem bhSortedP_sorted (p : List ℚ) : (bhSortedP p).Sorted (· ≤ ·) := by
  have hs : (argsortQ p).Sorted (bhRel p) :=
    List.sorted_insertionSort (bhRel p) (List.range p.length)
  unfold bhSortedP
  exact hs.map (fun i => p.getD i 0)
    (fun i j hij => by
      rcases hij with h | ⟨h, _⟩
      · exact le_of_lt h
      · exact le_of_eq h)

theorem argsortQ_perm (p : List ℚ) : List.Perm (argsortQ p) (List.range p.length) :=
  List.perm_insertionSort (bhRel p) (List.range p.length)

theorem argsortQ_length (p : List ℚ) : (argsortQ p).length = p.length := by
  rw [(argsortQ_perm p).length_eq, List.length_range]

theorem argsortQ_mem_lt (p : List ℚ) {j : ℕ} (hj : j ∈ argsortQ p) : j < p.length := by
  have := (argsortQ_perm p).mem_iff.mp hj
  simpa using this

/-- C6: Benjamini-Hochberg q-values of bh_fdr. For every list of p-values
(all nonnegative, as p-values are): (a) the q-value at ascending-sort rank r
is the minimum over ranks r+1..m of p(rank) * m / rank; (b) read from the
largest rank down to the smallest the q-values are non-increasing, i.e. they
are non-decreasing in rank; (c) every original position satisfies
p[i] <= q[i]. -/
theorem c6_bh_fdr_qvalues (p : List ℚ) (hp : ∀ x ∈ p, 0 ≤ x) :
    (∀ r, r < p.length →
      (bhQSorted p).getD r 0 = listMinQ ((bhVals p).drop r)) ∧
    (∀ r, r + 1 < p.length →
      (bhQSorted p).getD r 0 ≤ (bhQSorted p).getD (r + 1) 0) ∧
    (∀ i, i < p.length → p.getD i 0 ≤ (bh_fdr p).getD i 0) := by
  refine ⟨fun r hr => bhQSorted_getD p r hr, ?_, ?_⟩
  · intro r hr
    rw [bhQSorted_getD p r (by omega), bhQSorted_getD p (r + 1) hr]
    have hrv : r < (bhVals p).length := by rw [bhVals_length]; omega
    have hdrop : (bhVals p).drop r = (bhVals p)[r] :: (bhVals p).drop (r + 1) :=
      List.drop_eq_getElem_cons hrv
    have hne : (bhVals p).drop (r + 1) ≠ [] := by
      have : ((bhVals p).drop (r + 1)).length = (bhVals p).length - (r + 1) := by
        simp
      intro hcontr
      rw [hcontr] at this
      rw [bhVals_length] at this
      simp at this
      omega
    rw [hdrop, listMinQ_cons _ _ hne]
    exact min_le_right _ _
  · intro i hi
    -- locate position i in the argsort
    have hmem : i ∈ argsortQ p := by
      refine (argsortQ_perm p).mem_iff.mpr ?_
      simpa using hi
    have hpos : (argsortQ p).indexOf i < (argsortQ p).length :=
      List.indexOf_lt_length.mpr hmem
    have hposp : (argsortQ p).indexOf i < p.length := by
      rwa [argsortQ_length] at hpos
    -- bh_fdr p at i is the sorted q-value at that position
    have hfdr : (bh_fdr p).getD i 0 = (bhQSorted p).getD ((argsortQ p).indexOf i) 0 := by
      unfold bh_fdr
      rw [List.getD_eq_getElem _ _ (by simpa using hi), List.getElem_map,
        List.getElem_range]
    -- the sorted p-value at that position is p i
    have hsortPi : (bhSortedP p).getD ((argsortQ p).indexOf i) 0 = p.getD i 0 := by
      unfold bhSortedP
      rw [List.getD_eq_getElem _ _ (by simpa [argsortQ_length] using hposp),
        List.getElem_map, List.getElem_indexOf hpos]
    rw [hfdr, bhQSorted_getD p _ hposp]
    -- every entry of the dropped tail dominates p i
    have hboundall : ∀ x ∈ (bhVals p).drop ((argsortQ p).indexOf i), p.getD i 0 ≤ x := by
      intro x hx
      rcases List.mem_iff_getElem.mp hx with ⟨k, hk, hget⟩
      have hklen : (argsortQ p).indexOf i + k < (bhVals p).length := by
        have := hk
        simp only [List.length_drop] at this
        omega
      rw [List.getElem_drop] at hget
      set j := (argsortQ p).indexOf i + k with hj
      have hjp : j < p.length := by rwa [bhVals_length] at hklen
      have hval : (bhVals p).getD j 0 =
          (bhSortedP p).getD j 0 * (p.length : ℚ) / ((j : ℚ) + 1) := by
        unfold bhVals
        rw [List.getD_eq_getElem _ _ (by simpa [bhVals] using hklen),
          List.getElem_map, List.getElem_range]
      have hsorted_le : (bhSortedP p).getD ((argsortQ p).indexOf i) 0 ≤
          (bhSortedP p).getD j 0 := by
        have hlenS : (bhSortedP p).length = p.length := by
          unfold bhSortedP
          rw [List.length_map, argsortQ_length]
        rcases Nat.eq_or_lt_of_le (Nat.le_add_right ((argsortQ p).indexOf i) k) with he | hl
        · have hjeq : j = (argsortQ p).indexOf i := by omega
          rw [hjeq]
        · have := (List.pairwise_iff_getElem.mp (bhSortedP_sorted p))
            ((argsortQ p).indexOf i) j (by omega) (by omega) (by omega)
          rw [List.getD_eq_getElem _ _ (by omega), List.getD_eq_getElem _ _ (by omega)]
          exact this
      have hnonneg : 0 ≤ (bhSortedP p).getD j 0 := by
        have hjS : j < (bhSortedP p).length := by
          unfold bhSortedP
          simpa [argsortQ_length] using hjp
        have hmemS : (bhSortedP p).getD j 0 ∈ bhSortedP p := by
          rw [List.getD_eq_getElem _ _ hjS]
          exact List.getElem_mem _
        rcases List.mem_map.mp hmemS with ⟨i2, hi2, hval2⟩
        have hi2lt : i2 < p.length := argsortQ_mem_lt p hi2
        have hmem2 : p.getD i2 0 ∈ p := by
          rw [List.getD_eq_getElem _ _ hi2lt]
          exact List.getElem_mem _
        rw [← hval2]
        exact hp _ hmem2
      have hfactor : 1 ≤ (p.length : ℚ) / ((j : ℚ) + 1) := by
        rw [le_div_iff₀ (by positivity)]
        have : (j : ℚ) + 1 ≤ (p.length : ℚ) := by
          exact_mod_cast hjp
        linarith
      calc p.getD i 0 = (bhSortedP p).getD ((argsortQ p).indexOf i) 0 := hsortPi.symm
      _ ≤ (bhSortedP p).getD j 0 := hsorted_le
      _ = (bhSortedP p).getD j 0 * 1 := (mul_one _).symm
      _ ≤ (bhSortedP p).getD j 0 * ((p.length : ℚ) / ((j : ℚ) + 1)) := by
            exact mul_le_mul_of_nonneg_left hfactor hnonneg
      _ = (bhSortedP p).getD j 0 * (p.length : ℚ) / ((j : ℚ) + 1) := by ring
      _ = (bhVals p).getD j 0 := hval.symm
      _ = x := by
            rw [List.getD_eq_getElem _ _ hklen]
            exact hget
    apply le_listMinQ _ _ ?_ hboundall
    have : ((bhVals p).drop ((argsortQ p).indexOf i)).length =
        (bhVals p).length - (argsortQ p).indexOf i := by simp
    intro hcontr
    rw [hcontr] at this
    rw [bhVals_length] at this
    simp at this
    omega

/-- C6 witness: the three conjuncts evaluated on the nonnegative p-value
vector [3, 1, 2]. -/
theorem c6_bh_fdr_qvalues_witness :
    ((bhQSorted [(3 : ℚ), 1, 2]).getD 0 0 =
        listMinQ ((bhVals [(3 : ℚ), 1, 2]).drop 0)) ∧
      ((bhQSorted [(3 : ℚ), 1, 2]).getD 0 0 ≤
        (bhQSorted [(3 : ℚ), 1, 2]).getD 1 0) ∧
      (([(3 : ℚ), 1, 2].getD 2 0) ≤ (bh_fdr [(3 : ℚ), 1, 2]).getD 2 0) := by
  obtain ⟨ha, hb, hc⟩ := c6_bh_fdr_qvalues [(3 : ℚ), 1, 2] (by decide)
  exact ⟨ha 0 (by decide), hb 0 (by decide), hc 2 (by decide)⟩

/-! ## Claim theorems: C8 -/

/-- C8 counterexample: on the six-minute series with one throttled alert at
minute 2, labels rising at minute 3 and horizon 2, the alert lies inside the
pre-flip window [1, 3], so the claimed outside-window rate is 0 while
evaluate_hazard reports 1 alert per day: the code counts every throttled
alert, not only those outside pre-flip windows. -/
theorem c8_false_alarm_counterexample :
    evaluateHazardFa [(0, 0), (1, 0), (2, 1), (3, 0), (4, 0), (5, 0)] (1/2) 30 ≠
      specFalseAlarmRate
        (throttleAlerts 30 (rawAlerts (1/2)
          (cleanPreds [(0, 0), (1, 0), (2, 1), (3, 0), (4, 0), (5, 0)])))
        (risingEdges [(0, 0), (1, 0), (2, 0), (3, 1), (4, 1), (5, 0)]) 2 := by
  norm_num [evaluateHazardFa, faPerDay, throttleAlerts, throttleGo, rawAlerts, cleanPreds,
    sortByTime, List.insertionSort, List.orderedInsert, specFalseAlarmRate, risingEdges,
    dayOf, listMin, listMax, List.countP, List.countP.go, List.range_succ, List.range_zero,
    Function.comp]

theorem sum_map_addN (xs : List ℕ) (f g : ℕ → ℕ) :
    (xs.map (fun i => f i + g i)).sum = (xs.map f).sum + (xs.map g).sum := by
  induction xs with
  | nil => rfl
  | cons y ys ih =>
    simp only [List.map_cons, List.sum_cons, ih]
    omega

theorem sum_range_day_indicator : ∀ (n : ℕ) (d0 d : ℤ),
    (((List.range n).map (fun (i : ℕ) => if d = d0 + (i : ℤ) then (1 : ℕ) else 0)).sum) =
      if d0 ≤ d ∧ d < d0 + (n : ℤ) then 1 else 0 := by
  intro n
  induction n with
  | zero =>
    intro d0 d
    rw [if_neg (by omega)]
    rfl
  | succ m ih =>
    intro d0 d
    rw [List.range_succ, List.map_append, List.sum_append, ih]
    simp only [List.map_cons, List.map_nil, List.sum_cons, List.sum_nil]
    by_cases h1 : d = d0 + (m : ℤ)
    · rw [if_pos h1, if_neg (by omega), if_pos (by omega)]
      omega
    · rw [if_neg h1]
      by_cases h2 : d0 ≤ d ∧ d < d0 + (m : ℤ)
      · rw [if_pos h2, if_pos (by omega)]
        omega
      · rw [if_neg h2, if_neg (by omega)]
        omega

theorem sum_daily_counts (d0 : ℤ) (n : ℕ) :
    ∀ l : List (ℤ × Bool),
      (∀ e ∈ l, e.2 = true → d0 ≤ dayOf e.1 ∧ dayOf e.1 < d0 + (n : ℤ)) →
      ((List.range n).map
        (fun (i : ℕ) => l.countP (fun e => e.2 && decide (dayOf e.1 = d0 + (i : ℤ))))).sum =
        l.countP (fun e => e.2) := by
  intro l
  induction l with
  | nil =>
    intro _
    simp [List.countP_nil]
  | cons e l ih =>
    intro hall
    have hall2 : ∀ x ∈ l, x.2 = true → d0 ≤ dayOf x.1 ∧ dayOf x.1 < d0 + (n : ℤ) :=
      fun x hx => hall x (List.mem_cons_of_mem e hx)
    have hcnt : ∀ i : ℕ,
        (e :: l).countP (fun x => x.2 && decide (dayOf x.1 = d0 + (i : ℤ))) =
          l.countP (fun x => x.2 && decide (dayOf x.1 = d0 + (i : ℤ))) +
            (if e.2 = true ∧ dayOf e.1 = d0 + (i : ℤ) then 1 else 0) := by
      intro i
      rw [List.countP_cons]
      congr 1
      by_cases he : e.2 = true ∧ dayOf e.1 = d0 + (i : ℤ)
      · rw [if_pos he]
        rw [if_pos (by simp [he.1, he.2])]
      · rw [if_neg he]
        rw [if_neg (by
          intro hcontr
          simp only [Bool.and_eq_true, decide_eq_true_eq] at hcontr
          exact he hcontr)]
    have hmapeq : (List.range n).map
        (fun (i : ℕ) => (e :: l).countP (fun x => x.2 && decide (dayOf x.1 = d0 + (i : ℤ)))) =
        (List.range n).map
          (fun (i : ℕ) => l.countP (fun x => x.2 && decide (dayOf x.1 = d0 + (i : ℤ))) +
            (if e.2 = true ∧ dayOf e.1 = d0 + (i : ℤ) then 1 else 0)) :=
      List.map_congr_left (fun i _ => hcnt i)
    rw [hmapeq, sum_map_addN, ih hall2, List.countP_cons]
    congr 1
    by_cases he : e.2 = true
    · have hind : ∀ i : ℕ,
          (if e.2 = true ∧ dayOf e.1 = d0 + (i : ℤ) then (1 : ℕ) else 0) =
            (if dayOf e.1 = d0 + (i : ℤ) then (1 : ℕ) else 0) := by
        intro i
        by_cases hd : dayOf e.1 = d0 + (i : ℤ)
        · rw [if_pos ⟨he, hd⟩, if_pos hd]
        · rw [if_neg (fun hcontr => hd hcontr.2), if_neg hd]
      rw [List.map_congr_left (fun i _ => hind i), sum_range_day_indicator,
        if_pos (hall e (List.mem_cons_self e l) he), if_pos he]
    · have hind : ∀ i : ℕ,
          (if e.2 = true ∧ dayOf e.1 = d0 + (i : ℤ) then (1 : ℕ) else 0) = 0 := by
        intro i
        rw [if_neg (fun hcontr => he hcontr.1)]
      rw [List.map_congr_left (fun i _ => hind i)]
      simp [he]

/-- C8 (amended): the false_alarms_per_day entry of evaluate_hazard equals
the total number of throttled alerts, pre-flip windows included, divided by
the number of calendar days spanned by the evaluated index (the
outside-window rate of the claim is computed by
scripts/hazard_eval_operating_point.py, not by evaluate_hazard). -/
theorem c8_false_alarm_amended (alerts : List (ℤ × Bool)) (h : alerts ≠ []) :
    faPerDay alerts = (alerts.countP (fun e => e.2) : ℚ) /
      (((dayOf (listMax (alerts.map Prod.fst)) -
          dayOf (listMin (alerts.map Prod.fst)) + 1).toNat : ℚ)) := by
  have hemp : alerts.isEmpty = false := by
    cases alerts with
    | nil => exact absurd rfl h
    | cons a l => rfl
  unfold faPerDay
  rw [hemp]
  simp only [Bool.false_eq_true, if_false]
  have hd01 : dayOf (listMin (alerts.map Prod.fst)) ≤
      dayOf (listMax (alerts.map Prod.fst)) := by
    unfold dayOf
    exact Int.ediv_le_ediv (by norm_num) (listMin_le_listMax _)
  have hall : ∀ e ∈ alerts, e.2 = true →
      dayOf (listMin (alerts.map Prod.fst)) ≤ dayOf e.1 ∧
        dayOf e.1 < dayOf (listMin (alerts.map Prod.fst)) +
          (((dayOf (listMax (alerts.map Prod.fst)) -
            dayOf (listMin (alerts.map Prod.fst)) + 1).toNat : ℤ)) := by
    intro e he _
    have hmem : e.1 ∈ alerts.map Prod.fst := List.mem_map_of_mem Prod.fst he
    have h1 : listMin (alerts.map Prod.fst) ≤ e.1 := listMin_le_mem _ _ hmem
    have h2 : e.1 ≤ listMax (alerts.map Prod.fst) := mem_le_listMax _ _ hmem
    have h3 : dayOf (listMin (alerts.map Prod.fst)) ≤ dayOf e.1 := by
      unfold dayOf
      exact Int.ediv_le_ediv (by norm_num) h1
    have h4 : dayOf e.1 ≤ dayOf (listMax (alerts.map Prod.fst)) := by
      unfold dayOf
      exact Int.ediv_le_ediv (by norm_num) h2
    refine ⟨h3, ?_⟩
    omega
  rw [sum_daily_counts _ _ alerts hall]

/-- C8 witness: the amended false-alarm identity evaluated on the singleton
alert series at minute 0. -/
theorem c8_false_alarm_amended_witness :
    faPerDay [((0 : ℤ), true)] =
      (List.countP (fun e => e.2) [((0 : ℤ), true)] : ℚ) /
        (((dayOf (listMax ([((0 : ℤ), true)].map Prod.fst)) -
            dayOf (listMin ([((0 : ℤ), true)].map Prod.fst)) + 1).toNat : ℚ)) :=
  c8_false_alarm_amended [((0 : ℤ), true)] (by decide)

/-! ## Claim theorems: C4 and C10 (gate) -/

instance : IsTotal (ℤ × ℚ) (fun a b => a.1 ≤ b.1) :=
  ⟨fun a b => Int.le_total a.1 b.1⟩

instance : IsTrans (ℤ × ℚ) (fun a b => a.1 ≤ b.1) :=
  ⟨fun _ _ _ h1 h2 => le_trans h1 h2⟩

instance : IsAntisymm (ℤ × ℚ) (fun a b => a.1 < b.1) :=
  ⟨fun _ _ h1 h2 => absurd (lt_trans h1 h2) (lt_irrefl _)⟩

/-- Final EMA state after scanning a block (the value the recursion carries
into the next block). -/
def ewmLast (a : ℚ) (prev : ℚ) (l : List (ℤ × ℚ)) : ℚ :=
  l.foldl (fun pacc e => (1 - a) * pacc + a * e.2) prev

theorem ewmGo_append (a : ℚ) :
    ∀ (l1 l2 : List (ℤ × ℚ)) (prev : ℚ),
      ewmGo a prev (l1 ++ l2) = ewmGo a prev l1 ++ ewmGo a (ewmLast a prev l1) l2 := by
  intro l1
  induction l1 with
  | nil => intro l2 prev; rfl
  | cons e r ih =>
    intro l2 prev
    cases e with
    | mk t x =>
      show (t, (1 - a) * prev + a * x) :: ewmGo a ((1 - a) * prev + a * x) (r ++ l2) = _
      rw [ih l2 ((1 - a) * prev + a * x)]
      rfl

theorem ewmGo_map_fst (a : ℚ) :
    ∀ (l : List (ℤ × ℚ)) (prev : ℚ), (ewmGo a prev l).map Prod.fst = l.map Prod.fst := by
  intro l
  induction l with
  | nil => intro prev; rfl
  | cons e r ih =>
    intro prev
    cases e with
    | mk t x => simp [ewmGo, ih]

theorem ewmPairs_map_fst (a : ℚ) (l : List (ℤ × ℚ)) :
    (ewmPairs a l).map Prod.fst = l.map Prod.fst := by
  cases l with
  | nil => rfl
  | cons e r =>
    cases e with
    | mk t x => simp [ewmPairs, ewmGo_map_fst]

theorem smoothSeries_map_fst (span : ℤ) (l : List (ℤ × ℚ)) :
    (smoothSeries span l).map Prod.fst = l.map Prod.fst := by
  unfold smoothSeries
  by_cases h : 1 < span
  · simp only [h, if_true, ewmPairs_map_fst]
  · simp only [h, if_false]

theorem smooth_append (span : ℤ) (l1 l2 : List (ℤ × ℚ)) :
    ∃ sm2 : List (ℤ × ℚ),
      smoothSeries span (l1 ++ l2) = smoothSeries span l1 ++ sm2 ∧
        sm2.map Prod.fst = l2.map Prod.fst := by
  unfold smoothSeries
  by_cases h : 1 < span
  · simp only [h, if_true]
    cases l1 with
    | nil => exact ⟨ewmPairs (2 / ((span : ℚ) + 1)) l2, rfl, ewmPairs_map_fst _ l2⟩
    | cons e r =>
      cases e with
      | mk t x =>
        refine ⟨ewmGo (2 / ((span : ℚ) + 1))
          (ewmLast (2 / ((span : ℚ) + 1)) x r) l2, ?_, ewmGo_map_fst _ l2 _⟩
        show (t, x) :: ewmGo _ x (r ++ l2) = ((t, x) :: ewmGo _ x r) ++ _
        rw [ewmGo_append]
        rfl
  · simp only [h, if_false]
    exact ⟨l2, rfl, rfl⟩

theorem onFlags_map_fst (thr : ℚ) (k : ℤ) (s : List (ℤ × ℚ)) :
    (onFlags thr k s).map Prod.fst = s.map Prod.fst := by
  unfold onFlags
  by_cases hk : 1 < k
  · simp only [hk, if_true]
    apply List.ext_getElem
    · simp
    · intro i h1 h2
      simp only [List.getElem_map, List.getElem_range]
      rw [List.getD_eq_getElem _ _ (by simpa using h2)]
  · simp only [hk, if_false, List.map_map]
    rfl

theorem onFlags_append (thr : ℚ) (k : ℤ) (s1 s2 : List (ℤ × ℚ)) :
    ∃ f2 : List (ℤ × Bool),
      onFlags thr k (s1 ++ s2) = onFlags thr k s1 ++ f2 ∧
        f2.map Prod.fst = s2.map Prod.fst := by
  unfold onFlags
  by_cases hk : 1 < k
  · simp only [hk, if_true]
    refine ⟨(List.range s2.length).map (fun j =>
      (((s1 ++ s2).getD (s1.length + j) (0, 0)).1,
        decide (k ≤ ((s1.length + j : ℕ) : ℤ) + 1) &&
          ((((s1 ++ s2).take (s1.length + j + 1)).drop (s1.length + j + 1 - k.toNat)).countP
            (fun e => decide (thr ≤ e.2)) = k.toNat))), ?_, ?_⟩
    · rw [List.length_append, List.range_add, List.map_append, List.map_map]
      congr 1
      apply List.map_congr_left
      intro i hi
      have hilt : i < s1.length := List.mem_range.mp hi
      have hgetD : (s1 ++ s2).getD i (0, 0) = s1.getD i (0, 0) :=
        List.getD_append _ _ _ _ hilt
      have htake : (s1 ++ s2).take (i + 1) = s1.take (i + 1) :=
        List.take_append_of_le_length (by omega)
      rw [hgetD, htake]
    · apply List.ext_getElem
      · simp
      · intro j h1 h2
        simp only [List.getElem_map, List.getElem_range]
        have hj : j < s2.length := by simpa using h2
        have hgetD : (s1 ++ s2).getD (s1.length + j) (0, 0) = s2.getD j (0, 0) := by
          rw [List.getD_append_right _ _ _ _ (by omega)]
          congr 1
          omega
        rw [hgetD, List.getD_eq_getElem _ _ hj]
  · simp only [hk, if_false, List.map_append]
    exact ⟨s2.map (fun e => (e.1, decide (thr ≤ e.2))), rfl, by
      rw [List.map_map]
      rfl⟩

theorem emitGo_append (sep : ℤ) :
    ∀ (A B : List ℤ) (last : Option ℤ),
      emitGo sep last (A ++ B) = emitGo sep last A ++ emitGo sep (emitLast sep last A) B := by
  intro A
  induction A with
  | nil => intro B last; rfl
  | cons t r ih =>
    intro B last
    by_cases hc : (match last with
      | none => true
      | some l => decide (sep ≤ t - l)) = true
    · have hlast : emitLast sep last (t :: r) = emitLast sep (some t) r := by
        conv_lhs => unfold emitLast
        rw [if_pos hc]
      have hL : emitGo sep last (t :: (r ++ B)) = t :: emitGo sep (some t) (r ++ B) := by
        conv_lhs => unfold emitGo
        rw [if_pos hc]
      have hR : emitGo sep last (t :: r) = t :: emitGo sep (some t) r := by
        conv_lhs => unfold emitGo
        rw [if_pos hc]
      show emitGo sep last (t :: (r ++ B)) = _
      rw [hlast, hL, hR, ih B (some t)]
      rfl
    · have hlast : emitLast sep last (t :: r) = emitLast sep last r := by
        conv_lhs => unfold emitLast
        rw [if_neg hc]
      have hL : emitGo sep last (t :: (r ++ B)) = emitGo sep last (r ++ B) := by
        conv_lhs => unfold emitGo
        rw [if_neg hc]
      have hR : emitGo sep last (t :: r) = emitGo sep last r := by
        conv_lhs => unfold emitGo
        rw [if_neg hc]
      show emitGo sep last (t :: (r ++ B)) = _
      rw [hlast, hL, hR, ih B last]

theorem emitGo_sublist (sep : ℤ) :
    ∀ (A : List ℤ) (last : Option ℤ), List.Sublist (emitGo sep last A) A := by
  intro A
  induction A with
  | nil => intro last; exact List.Sublist.refl []
  | cons t r ih =>
    intro last
    by_cases hc : (match last with
      | none => true
      | some l => decide (sep ≤ t - l)) = true
    · unfold emitGo
      rw [if_pos hc]
      exact List.Sublist.cons₂ t (ih (some t))
    · unfold emitGo
      rw [if_neg hc]
      exact List.Sublist.cons t (ih last)

theorem sorted_lt_of_sorted_le_nodup (l : List (ℤ × ℚ))
    (hs : l.Sorted (fun a b => a.1 ≤ b.1)) (hnd : (l.map Prod.fst).Nodup) :
    l.Sorted (fun a b => a.1 < b.1) := by
  have hne : l.Pairwise (fun a b => a.1 ≠ b.1) := List.pairwise_map.mp hnd
  exact (hs.and hne).imp (fun h => lt_of_le_of_ne h.1 h.2)

theorem sortByTime_sorted_le (xs : List (ℤ × ℚ)) :
    (sortByTime xs).Sorted (fun a b => a.1 ≤ b.1) :=
  List.sorted_insertionSort _ xs

theorem sortByTime_perm (xs : List (ℤ × ℚ)) : List.Perm (sortByTime xs) xs :=
  List.perm_insertionSort _ xs

theorem sortByTime_eq_self (xs : List (ℤ × ℚ))
    (hs : xs.Sorted (fun a b => a.1 < b.1)) : sortByTime xs = xs := by
  have hnd : (xs.map Prod.fst).Nodup := by
    have : (xs.map Prod.fst).Pairwise (· < ·) :=
      hs.map Prod.fst (fun a b h => h)
    exact this.nodup
  have hnd2 : ((sortByTime xs).map Prod.fst).Nodup := by
    have hp : List.Perm ((sortByTime xs).map Prod.fst) (xs.map Prod.fst) :=
      (sortByTime_perm xs).map Prod.fst
    exact hnd.perm hp.symm
  exact List.eq_of_perm_of_sorted (sortByTime_perm xs)
    (sorted_lt_of_sorted_le_nodup _ (sortByTime_sorted_le xs) hnd2) hs

theorem sortByTime_eq_of_perm (xs ys : List (ℤ × ℚ)) (hperm : List.Perm ys xs)
    (hnd : (xs.map Prod.fst).Nodup) : sortByTime ys = sortByTime xs := by
  have hndy : ((sortByTime ys).map Prod.fst).Nodup := by
    have hp : List.Perm ((sortByTime ys).map Prod.fst) (xs.map Prod.fst) :=
      ((sortByTime_perm ys).trans hperm).map Prod.fst
    exact hnd.perm hp.symm
  have hndx : ((sortByTime xs).map Prod.fst).Nodup := by
    have hp : List.Perm ((sortByTime xs).map Prod.fst) (xs.map Prod.fst) :=
      (sortByTime_perm xs).map Prod.fst
    exact hnd.perm hp.symm
  exact List.eq_of_perm_of_sorted
    ((sortByTime_perm ys).trans (hperm.trans (sortByTime_perm xs).symm))
    (sorted_lt_of_sorted_le_nodup _ (sortByTime_sorted_le ys) hndy)
    (sorted_lt_of_sorted_le_nodup _ (sortByTime_sorted_le xs) hndx)

theorem sorted_filter_eq_takeWhile (T : ℤ) (xs : List (ℤ × ℚ))
    (hs : xs.Sorted (fun a b => a.1 < b.1)) :
    xs.filter (fun e => decide (e.1 ≤ T)) = xs.takeWhile (fun e => decide (e.1 ≤ T)) := by
  induction xs with
  | nil => rfl
  | cons x tl ih =>
    have hs2 : tl.Sorted (fun a b => a.1 < b.1) := (List.sorted_cons.mp hs).2
    by_cases hx : x.1 ≤ T
    · rw [List.filter_cons_of_pos (by simpa using hx),
        List.takeWhile_cons_of_pos (by simpa using hx), ih hs2]
    · rw [List.filter_cons_of_neg (by simpa using hx),
        List.takeWhile_cons_of_neg (by simpa using hx)]
      rw [List.filter_eq_nil_iff]
      intro e he
      have hlt : x.1 < e.1 := (List.sorted_cons.mp hs).1 e he
      simp only [decide_eq_true_eq]
      omega

theorem sorted_dropWhile_gt (T : ℤ) (xs : List (ℤ × ℚ))
    (hs : xs.Sorted (fun a b => a.1 < b.1)) :
    ∀ e ∈ xs.dropWhile (fun e => decide (e.1 ≤ T)), ¬e.1 ≤ T := by
  induction xs with
  | nil => intro e he; cases he
  | cons x tl ih =>
    have hs2 : tl.Sorted (fun a b => a.1 < b.1) := (List.sorted_cons.mp hs).2
    by_cases hx : x.1 ≤ T
    · rw [List.dropWhile_cons_of_pos (by simpa using hx)]
      exact ih hs2
    · rw [List.dropWhile_cons_of_neg (by simpa using hx)]
      intro e he
      rcases List.mem_cons.mp he with h | h
      · subst h
        exact hx
      · have hlt : x.1 < e.1 := (List.sorted_cons.mp hs).1 e h
        omega

/-- C4: gate streaming/batch parity. For every probability series with
strictly increasing timestamps and all gate parameters, running
gate_timeseries on the time-prefix of the series up to any cutoff T yields
exactly the alerts of the full run that fall at or before T: feeding the
data after T never adds, removes or re-times an alert at or before T. -/
theorem c4_gate_parity (xs : List (ℤ × ℚ)) (thr : ℚ) (k span sep : ℤ) (T : ℤ)
    (hs : xs.Sorted (fun a b => a.1 < b.1)) :
    gate_timeseries (xs.filter (fun e => decide (e.1 ≤ T))) thr k span sep =
      (gate_timeseries xs thr k span sep).filter (fun t => decide (t ≤ T)) := by
  have hfilter : xs.filter (fun e => decide (e.1 ≤ T)) =
      xs.takeWhile (fun e => decide (e.1 ≤ T)) := sorted_filter_eq_takeWhile T xs hs
  set l1 := xs.takeWhile (fun e => decide (e.1 ≤ T)) with hl1
  set l2 := xs.dropWhile (fun e => decide (e.1 ≤ T)) with hl2
  have hsplit : l1 ++ l2 = xs :=
    List.takeWhile_append_dropWhile (p := fun e => decide (e.1 ≤ T)) (l := xs)
  have h1le : ∀ e ∈ l1, e.1 ≤ T := by
    intro e he
    have := List.mem_takeWhile_imp he
    simpa using this
  have h2gt : ∀ e ∈ l2, ¬e.1 ≤ T := sorted_dropWhile_gt T xs hs
  have hsort1 : l1.Sorted (fun a b => a.1 < b.1) := hs.sublist (List.takeWhile_sublist _)
  have hsortT1 : sortByTime l1 = l1 := sortByTime_eq_self l1 hsort1
  have hsortTx : sortByTime xs = xs := sortByTime_eq_self xs hs
  obtain ⟨sm2, hsm, hsmfst⟩ := smooth_append span l1 l2
  obtain ⟨f2, hf, hffst⟩ := onFlags_append thr k (smoothSeries span l1) sm2
  -- decompose the full-series pipeline at the cutoff
  have hFL : onFlags thr k (smoothSeries span xs) =
      onFlags thr k (smoothSeries span l1) ++ f2 := by
    rw [← hsplit, hsm, hf]
  have hA : ((onFlags thr k (smoothSeries span xs)).filter (fun e => e.2)).map Prod.fst =
      ((onFlags thr k (smoothSeries span l1)).filter (fun e => e.2)).map Prod.fst ++
        (f2.filter (fun e => e.2)).map Prod.fst := by
    rw [hFL, List.filter_append, List.map_append]
  have hgate_full : gate_timeseries xs thr k span sep =
      emitGo sep none
        (((onFlags thr k (smoothSeries span l1)).filter (fun e => e.2)).map Prod.fst) ++
      emitGo sep
        (emitLast sep none
          (((onFlags thr k (smoothSeries span l1)).filter (fun e => e.2)).map Prod.fst))
        ((f2.filter (fun e => e.2)).map Prod.fst) := by
    unfold gate_timeseries
    rw [hsortTx, hA, emitGo_append]
  have hgate_l1 : gate_timeseries (xs.filter (fun e => decide (e.1 ≤ T))) thr k span sep =
      emitGo sep none
        (((onFlags thr k (smoothSeries span l1)).filter (fun e => e.2)).map Prod.fst) := by
    rw [hfilter]
    unfold gate_timeseries
    rw [hsortT1]
  -- the first block of alerts is at or before T
  have hX : ∀ t ∈ emitGo sep none
      (((onFlags thr k (smoothSeries span l1)).filter (fun e => e.2)).map Prod.fst),
      t ≤ T := by
    intro t ht
    have h1 : t ∈ ((onFlags thr k (smoothSeries span l1)).filter (fun e => e.2)).map Prod.fst :=
      (emitGo_sublist sep _ none).subset ht
    have h2 : t ∈ (onFlags thr k (smoothSeries span l1)).map Prod.fst :=
      (((List.filter_sublist _).map Prod.fst).subset) h1
    rw [onFlags_map_fst, smoothSeries_map_fst] at h2
    rcases List.mem_map.mp h2 with ⟨e, he, het⟩
    exact het ▸ h1le e he
  -- the second block of alerts is strictly after T
  have hY : ∀ t ∈ emitGo sep
      (emitLast sep none
        (((onFlags thr k (smoothSeries span l1)).filter (fun e => e.2)).map Prod.fst))
      ((f2.filter (fun e => e.2)).map Prod.fst), ¬t ≤ T := by
    intro t ht
    have h1 : t ∈ (f2.filter (fun e => e.2)).map Prod.fst :=
      (emitGo_sublist sep _ _).subset ht
    have h2 : t ∈ f2.map Prod.fst := (((List.filter_sublist _).map Prod.fst).subset) h1
    rw [hffst, hsmfst] at h2
    rcases List.mem_map.mp h2 with ⟨e, he, het⟩
    exact het ▸ h2gt e he
  have hXfilter : (emitGo sep none
      (((onFlags thr k (smoothSeries span l1)).filter (fun e => e.2)).map Prod.fst)).filter
        (fun t => decide (t ≤ T)) =
      emitGo sep none
        (((onFlags thr k (smoothSeries span l1)).filter (fun e => e.2)).map Prod.fst) :=
    List.filter_eq_self.mpr (fun t ht => by simpa using hX t ht)
  have hYfilter : (emitGo sep
      (emitLast sep none
        (((onFlags thr k (smoothSeries span l1)).filter (fun e => e.2)).map Prod.fst))
      ((f2.filter (fun e => e.2)).map Prod.fst)).filter (fun t => decide (t ≤ T)) = [] :=
    List.filter_eq_nil_iff.mpr (fun t ht => by simpa using hY t ht)
  rw [hgate_full, hgate_l1, List.filter_append, hXfilter, hYfilter, List.append_nil]

/-- C4 witness: the parity identity instantiated on a concrete two-minute
sorted series with cutoff 0. -/
theorem c4_gate_parity_witness :
    gate_timeseries ([((0 : ℤ), (1 : ℚ)), (1, 0)].filter (fun e => decide (e.1 ≤ 0)))
        1 1 1 1 =
      (gate_timeseries [((0 : ℤ), (1 : ℚ)), (1, 0)] 1 1 1 1).filter
        (fun t => decide (t ≤ 0)) :=
  c4_gate_parity [((0 : ℤ), (1 : ℚ)), (1, 0)] 1 1 1 1 0 (by
    refine List.pairwise_cons.mpr ⟨?_, List.pairwise_cons.mpr ⟨?_, List.Pairwise.nil⟩⟩
    · intro b hb
      rcases List.mem_singleton.mp hb with rfl
      decide
    · intro b hb
      cases hb)

/-- C10: gate input-order insensitivity. For any two series that are
permutations of each other with no duplicate timestamp, gate_timeseries
returns the same alert index (the gate first sorts by timestamp, so it
depends only on the timestamp-to-probability mapping), and the returned
alert timestamps are strictly increasing. -/
theorem c10_gate_input_order (xs ys : List (ℤ × ℚ)) (thr : ℚ) (k span sep : ℤ)
    (hperm : List.Perm ys xs) (hnd : (xs.map Prod.fst).Nodup) :
    gate_timeseries ys thr k span sep = gate_timeseries xs thr k span sep ∧
      (gate_timeseries xs thr k span sep).Pairwise (· < ·) := by
  constructor
  · unfold gate_timeseries
    rw [sortByTime_eq_of_perm xs ys hperm hnd]
  · unfold gate_timeseries
    have hndS : ((sortByTime xs).map Prod.fst).Nodup := by
      have hp : List.Perm ((sortByTime xs).map Prod.fst) (xs.map Prod.fst) :=
        (sortByTime_perm xs).map Prod.fst
      exact hnd.perm hp.symm
    have hslt : (sortByTime xs).Sorted (fun a b => a.1 < b.1) :=
      sorted_lt_of_sorted_le_nodup _ (sortByTime_sorted_le xs) hndS
    have htimes : (onFlags thr k (smoothSeries span (sortByTime xs))).map Prod.fst =
        (sortByTime xs).map Prod.fst := by
      rw [onFlags_map_fst, smoothSeries_map_fst]
    have hptimes : ((onFlags thr k (smoothSeries span (sortByTime xs))).map
        Prod.fst).Pairwise (· < ·) := by
      rw [htimes]
      exact hslt.map Prod.fst (fun a b h => h)
    have hpA : (((onFlags thr k (smoothSeries span (sortByTime xs))).filter
        (fun e => e.2)).map Prod.fst).Pairwise (· < ·) :=
      hptimes.sublist ((List.filter_sublist _).map Prod.fst)
    exact hpA.sublist (emitGo_sublist sep _ none)

/-- C10 witness: swapping the two entries of a duplicate-free series leaves
the gate output unchanged, and the output is strictly increasing. -/
theorem c10_gate_input_order_witness :
    gate_timeseries [((1 : ℤ), (0 : ℚ)), (0, 1)] 1 1 1 1 =
        gate_timeseries [((0 : ℤ), (1 : ℚ)), (1, 0)] 1 1 1 1 ∧
      (gate_timeseries [((0 : ℤ), (1 : ℚ)), (1, 0)] 1 1 1 1).Pairwise (· < ·) :=
  c10_gate_input_order [((0 : ℤ), (1 : ℚ)), (1, 0)] [((1 : ℤ), (0 : ℚ)), (0, 1)]
    1 1 1 1 (List.Perm.swap ((0 : ℤ), (1 : ℚ)) ((1 : ℤ), (0 : ℚ)) []) (by decide)

/-! ## Claim theorems: C1 -/

theorem quantileQ_sorted_pair (l : List ℚ) (x y p : ℚ)
    (hsort : List.insertionSort (· ≤ ·) l = [x, y]) (hp0 : 0 ≤ p) (hp1 : p < 1) :
    quantileQ l p = x + p * (y - x) := by
  unfold quantileQ
  rw [hsort]
  simp only [List.length_cons, List.length_nil]
  rw [if_neg (by norm_num)]
  have harg : p * (((0 + 1 + 1 : ℕ) : ℚ) - 1) = p := by
    push_cast
    ring
  rw [harg]
  have hfl : (Int.floor p).toNat = 0 := by
    rw [Int.floor_eq_zero_iff.mpr (Set.mem_Ico.mpr ⟨hp0, hp1⟩)]
    rfl
  rw [hfl]
  simp only [List.getD_cons_zero, List.getD_cons_succ]
  push_cast
  ring

set_option maxHeartbeats 1600000 in
/-- C1 counterexample: feeding the concrete feature column with rows at
minutes 0, 60, 120 (window 5 days, winsor_pct 0.01, per_hour_of_day off) to
transform, the output at minute 60 changes both when the strictly later
input at minute 120 is perturbed (2 to 3: the winsorization quantiles are
computed over the whole column, future included) and when the input at
minute 60 itself is perturbed (1 to 2: the score at t divides the value at t
by the trailing MAD). Both perturbations are at times at or after t = 60,
refuting the claim that the output at t is a pure function of inputs at
times strictly before t. -/
theorem c1_normalization_counterexample :
    (lookupQ (transform false 7200 (1/100) [(0, 0), (60, 1), (120, 2)]) 60 ≠
      lookupQ (transform false 7200 (1/100) [(0, 0), (60, 1), (120, 3)]) 60) ∧
    (lookupQ (transform false 7200 (1/100) [(0, 0), (60, 1), (120, 2)]) 60 ≠
      lookupQ (transform false 7200 (1/100) [(0, 0), (60, 2), (120, 2)]) 60) := by
  -- base input
  have hz1 : zColumn 7200 [(0, 0), (60, 1), (120, 2)] =
      [(0, none), (60, some 1000000000), (120, some (500000000/166666667))] := by
    norm_num [zColumn, zValAt, windowVals, medianQ, madEps,
      List.insertionSort, List.orderedInsert, abs_eq_max_neg, max_def, min_def]
  have hs1 : List.insertionSort (· ≤ ·) [(1000000000 : ℚ), 500000000/166666667] =
      [500000000/166666667, 1000000000] := by
    norm_num [List.insertionSort, List.orderedInsert]
  have hlo1 : quantileQ [(1000000000 : ℚ), 500000000/166666667] (1/100) = 1666667165000000/166666667 := by
    rw [quantileQ_sorted_pair [(1000000000 : ℚ), 500000000/166666667]
      (500000000/166666667) 1000000000 (1/100) hs1 (by norm_num) (by norm_num)]
    norm_num
  have hhi1 : quantileQ [(1000000000 : ℚ), 500000000/166666667] (99/100) = 165000000335000000/166666667 := by
    rw [quantileQ_sorted_pair [(1000000000 : ℚ), 500000000/166666667]
      (500000000/166666667) 1000000000 (99/100) hs1 (by norm_num) (by norm_num)]
    norm_num
  have hw1 : winsorColumn (1/100)
      [(0, none), (60, some 1000000000), (120, some (500000000/166666667))] =
      [(0, none), (60, some (165000000335000000/166666667)),
        (120, some (1666667165000000/166666667))] := by
    unfold winsorColumn
    norm_num [List.filterMap, hlo1, hhi1, Option.map, min_def, max_def]
  have ht1 : transform false 7200 (1/100) [(0, 0), (60, 1), (120, 2)] =
      [(60, 165000000335000000/166666667), (120, 1666667165000000/166666667)] := by
    show dropNone (winsorColumn (1/100) (zColumn 7200 [(0, 0), (60, 1), (120, 2)])) = _
    rw [hz1, hw1]
    norm_num [dropNone, List.filterMap, Option.map]
  -- future perturbation at minute 120
  have hz2 : zColumn 7200 [(0, 0), (60, 1), (120, 3)] =
      [(0, none), (60, some 1000000000), (120, some (2500000000/500000001))] := by
    norm_num [zColumn, zValAt, windowVals, medianQ, madEps,
      List.insertionSort, List.orderedInsert, abs_eq_max_neg, max_def, min_def]
  have hs2 : List.insertionSort (· ≤ ·) [(1000000000 : ℚ), 2500000000/500000001] =
      [2500000000/500000001, 1000000000] := by
    norm_num [List.insertionSort, List.orderedInsert]
  have hlo2 : quantileQ [(1000000000 : ℚ), 2500000000/500000001] (1/100) = 1666667495000000/166666667 := by
    rw [quantileQ_sorted_pair [(1000000000 : ℚ), 2500000000/500000001]
      (2500000000/500000001) 1000000000 (1/100) hs2 (by norm_num) (by norm_num)]
    norm_num
  have hhi2 : quantileQ [(1000000000 : ℚ), 2500000000/500000001] (99/100) = 495000001015000000/500000001 := by
    rw [quantileQ_sorted_pair [(1000000000 : ℚ), 2500000000/500000001]
      (2500000000/500000001) 1000000000 (99/100) hs2 (by norm_num) (by norm_num)]
    norm_num
  have hw2 : winsorColumn (1/100)
      [(0, none), (60, some 1000000000), (120, some (2500000000/500000001))] =
      [(0, none), (60, some (495000001015000000/500000001)),
        (120, some (1666667495000000/166666667))] := by
    unfold winsorColumn
    norm_num [List.filterMap, hlo2, hhi2, Option.map, min_def, max_def]
  have ht2 : transform false 7200 (1/100) [(0, 0), (60, 1), (120, 3)] =
      [(60, 495000001015000000/500000001), (120, 1666667495000000/166666667)] := by
    show dropNone (winsorColumn (1/100) (zColumn 7200 [(0, 0), (60, 1), (120, 3)])) = _
    rw [hz2, hw2]
    norm_num [dropNone, List.filterMap, Option.map]
  -- perturbation at minute 60 itself
  have hz3 : zColumn 7200 [(0, 0), (60, 2), (120, 2)] =
      [(0, none), (60, some 2000000000), (120, some (1000000000/1000000001))] := by
    norm_num [zColumn, zValAt, windowVals, medianQ, madEps,
      List.insertionSort, List.orderedInsert, abs_eq_max_neg, max_def, min_def]
  have hs3 : List.insertionSort (· ≤ ·) [(2000000000 : ℚ), 1000000000/1000000001] =
      [1000000000/1000000001, 2000000000] := by
    norm_num [List.insertionSort, List.orderedInsert]
  have hlo3 : quantileQ [(2000000000 : ℚ), 1000000000/1000000001] (1/100) = 1818181910000000/90909091 := by
    rw [quantileQ_sorted_pair [(2000000000 : ℚ), 1000000000/1000000001]
      (1000000000/1000000001) 2000000000 (1/100) hs3 (by norm_num) (by norm_num)]
    norm_num
  have hhi3 : quantileQ [(2000000000 : ℚ), 1000000000/1000000001] (99/100) = 1980000001990000000/1000000001 := by
    rw [quantileQ_sorted_pair [(2000000000 : ℚ), 1000000000/1000000001]
      (1000000000/1000000001) 2000000000 (99/100) hs3 (by norm_num) (by norm_num)]
    norm_num
  have hw3 : winsorColumn (1/100)
      [(0, none), (60, some 2000000000), (120, some (1000000000/1000000001))] =
      [(0, none), (60, some (1980000001990000000/1000000001)),
        (120, some (1818181910000000/90909091))] := by
    unfold winsorColumn
    norm_num [List.filterMap, hlo3, hhi3, Option.map, min_def, max_def]
  have ht3 : transform false 7200 (1/100) [(0, 0), (60, 2), (120, 2)] =
      [(60, 1980000001990000000/1000000001), (120, 1818181910000000/90909091)] := by
    show dropNone (winsorColumn (1/100) (zColumn 7200 [(0, 0), (60, 2), (120, 2)])) = _
    rw [hz3, hw3]
    norm_num [dropNone, List.filterMap, Option.map]
  constructor
  · rw [ht1, ht2]
    norm_num [lookupQ, List.find?]
  · rw [ht1, ht3]
    norm_num [lookupQ, List.find?]

theorem windowVals_eq (W t : ℤ) :
    ∀ (g g' : List (ℤ × ℚ)),
      List.Forall₂ (fun a b => a.1 = b.1 ∧ (a.1 ≤ t → a.2 = b.2)) g g' →
      windowVals g W t = windowVals g' W t := by
  intro g g' h
  induction h with
  | nil => rfl
  | cons hab htail ih =>
    rename_i a b g2 g2'
    unfold windowVals at ih ⊢
    by_cases hc : (decide (t - W ≤ a.1) && decide (a.1 < t)) = true
    · have hc' : (decide (t - W ≤ b.1) && decide (b.1 < t)) = true := by
        rw [← hab.1]
        exact hc
      have hlt : a.1 < t := by
        simp only [Bool.and_eq_true, decide_eq_true_eq] at hc
        exact hc.2
      simp only [List.filter_cons, hc, hc', if_true, List.map_cons]
      rw [ih, hab.2 (le_of_lt hlt)]
    · have hc' : ¬(decide (t - W ≤ b.1) && decide (b.1 < t)) = true := by
        rw [← hab.1]
        exact hc
      have hcf : (decide (t - W ≤ a.1) && decide (a.1 < t)) = false :=
        Bool.eq_false_iff.mpr hc
      have hcf' : (decide (t - W ≤ b.1) && decide (b.1 < t)) = false :=
        Bool.eq_false_iff.mpr hc'
      simp only [List.filter_cons, hcf, hcf', Bool.false_eq_true, if_false]
      exact ih

theorem zColumn_lookup_aux (W t : ℤ) (G G' : List (ℤ × ℚ))
    (hw : windowVals G W t = windowVals G' W t) :
    ∀ (g g' : List (ℤ × ℚ)),
      List.Forall₂ (fun a b => a.1 = b.1 ∧ (a.1 ≤ t → a.2 = b.2)) g g' →
      lookupOpt (g.map (fun e => (e.1, zValAt W G e))) t =
        lookupOpt (g'.map (fun e => (e.1, zValAt W G' e))) t := by
  intro g g' h
  induction h with
  | nil => rfl
  | cons hab htail ih =>
    rename_i a b g2 g2'
    unfold lookupOpt at ih ⊢
    simp only [List.map_cons]
    by_cases hfound : (a.1 = t)
    · have hfound' : b.1 = t := hab.1 ▸ hfound
      rw [List.find?_cons_of_pos _ (by simpa using hfound),
        List.find?_cons_of_pos _ (by simpa using hfound')]
      show some (zValAt W G a) = some (zValAt W G' b)
      unfold zValAt
      rw [hfound, hfound', hw, hab.2 (le_of_eq hfound)]
    · have hfound' : ¬(b.1 = t) := fun hcontr => hfound (hab.1 ▸ hcontr)
      rw [List.find?_cons_of_neg _ (by simpa using hfound),
        List.find?_cons_of_neg _ (by simpa using hfound')]
      exact ih

/-- C1 (amended): in RollingRobustZ.transform the rolling median and MAD at
time t are computed over a backward window that excludes t, so the
pre-winsorization score column zColumn depends at time t only on inputs at
times at or before t: two input tables with the same timestamps that agree
on every row at a time at or before t have the same score at t. The value
at t itself does enter the score (the numerator is x_t minus the trailing
median), and the subsequent winsorization step computes its clip quantiles
over the whole column, future rows included, so the claim holds neither at
time t nor across the final winsorized output. -/
theorem c1_normalization_amended (W t : ℤ) (g g' : List (ℤ × ℚ))
    (h : List.Forall₂ (fun a b => a.1 = b.1 ∧ (a.1 ≤ t → a.2 = b.2)) g g') :
    lookupOpt (zColumn W g) t = lookupOpt (zColumn W g') t := by
  unfold zColumn
  exact zColumn_lookup_aux W t g g' (windowVals_eq W t g g' h) g g' h

/-- C1 witness: the pre-winsorization score at minute 60 is unchanged when
only the input at minute 120 differs. -/
theorem c1_normalization_amended_witness :
    lookupOpt (zColumn 7200 [(0, 5), (60, 1), (120, 2)]) 60 =
      lookupOpt (zColumn 7200 [(0, 5), (60, 1), (120, 99)]) 60 :=
  c1_normalization_amended 7200 60 [(0, 5), (60, 1), (120, 2)]
    [(0, 5), (60, 1), (120, 99)] (by
      refine List.Forall₂.cons ⟨rfl, fun _ => rfl⟩ ?_
      refine List.Forall₂.cons ⟨rfl, fun _ => rfl⟩ ?_
      refine List.Forall₂.cons ⟨rfl, fun hcontr => absurd hcontr (by decide)⟩ ?_
      exact List.Forall₂.nil)

end AlphaFlip
